import Mathlib

/-!
# Verification of the wrap policy and the base64 wrapper of `claude-code-bash-tool-hook`

Shallow embedding of `wrap.go` (`ShouldWrapCommand`, `WrapCommand`, `base64Encode`) and of the
type `Config` of `config.go`.

* A Go `string` is an immutable sequence of bytes, not necessarily valid UTF-8: `List (Fin 256)`.
* Go's `uint32` arithmetic is arithmetic on `Nat` reduced modulo `2 ^ 32`.
* A run-time panic (index out of range, nil pointer dereference) is the result `none`.
* The functions of the Go standard library that `ShouldWrapCommand` calls (`strings.TrimSpace`,
  `strings.HasPrefix`, `strings.Contains`) are transcribed from the library, together with the
  functions of `unicode/utf8` and `unicode` that `TrimSpace` reaches.
-/

namespace BashHook

set_option maxRecDepth 100000

/-! ## Data model -/

/-- A Go `byte`. -/
abbrev Byte := Fin 256

/-- A Go `string`: a sequence of bytes. -/
abbrev GoString := List Byte

/-- The bytes of a string literal made of ASCII characters only. -/
def ascii (s : String) : GoString := s.toList.map (fun ch => Fin.ofNat ch.toNat)

/-- Conversion to `uint32`: the value modulo `2 ^ 32`. -/
def u32 (n : Nat) : Nat := n % 2 ^ 32

/-! ## `base64Encode` and `WrapCommand` (wrap.go) -/

/-- The constant `alphabet` of `base64Encode`. -/
def alphabet : GoString :=
  ascii "ABCDEFGHIJKLMNOPQRSTUVWXYZabcdefghijklmnopqrstuvwxyz0123456789+/"

/-- The byte `'='`. -/
def padByte : Byte := 61

/-- The body of the `for` loop of `base64Encode`, run at index `i` with the builder holding
`result`. Every indexing (`input[i]`, `input[i+1]`, `input[i+2]`, `alphabet[...]`) is checked:
an index out of range gives `none`. -/
def base64Step (input : GoString) (i : Nat) (result : GoString) : Option GoString := do
  let remaining := input.length - i
  let b0 ← input[i]?
  let chunk := u32 (b0.val <<< 16)
  let chunk ←
    if remaining > 1 then (do
      let b1 ← input[i + 1]?
      pure (chunk ||| u32 (b1.val <<< 8)))
    else pure chunk
  let chunk ←
    if remaining > 2 then (do
      let b2 ← input[i + 2]?
      pure (chunk ||| u32 b2.val))
    else pure chunk
  let c0 ← alphabet[(chunk >>> 18) &&& 0x3F]?
  let result := result ++ [c0]
  let c1 ← alphabet[(chunk >>> 12) &&& 0x3F]?
  let result := result ++ [c1]
  let result ←
    if remaining > 1 then (do
      let c2 ← alphabet[(chunk >>> 6) &&& 0x3F]?
      pure (result ++ [c2]))
    else pure (result ++ [padByte])
  let result ←
    if remaining > 2 then (do
      let c3 ← alphabet[chunk &&& 0x3F]?
      pure (result ++ [c3]))
    else pure (result ++ [padByte])
  pure result

/-- The loop `for i := 0; i < len(input); i += 3` of `base64Encode`, from index `i` on, with at
most `fuel` passes; running out of fuel before the loop condition fails gives `none`. -/
def base64Loop (input : GoString) : Nat → Nat → GoString → Option GoString
  | 0, i, result => if i < input.length then none else some result
  | fuel + 1, i, result =>
    if i < input.length then
      (base64Step input i result).bind (base64Loop input fuel (i + 3))
    else some result

/-- The function `base64Encode`: the loop started at index `0` with an empty builder. The fuel
`len(input)` is more than the `⌈len(input) / 3⌉` passes the loop makes. -/
def base64Encode (s : GoString) : Option GoString :=
  base64Loop s s.length 0 []

/-- The fixed text `WrapCommand` puts before the payload. -/
def wrapPrefix : GoString := ascii "bash -c \"$(echo '"

/-- The fixed text `WrapCommand` puts after the payload. -/
def wrapSuffix : GoString := ascii "' | base64 -d)\""

/-- The function `WrapCommand`. -/
def WrapCommand (command : GoString) : Option GoString := do
  let encoded ← base64Encode command
  pure (wrapPrefix ++ encoded ++ wrapSuffix)

/-! ## Go standard library, package `unicode/utf8`

`ShouldWrapCommand` calls `strings.TrimSpace`, which decodes UTF-8 as soon as the text holds a
byte outside ASCII. The functions below transcribe the library functions it reaches. -/

/-- The constant `utf8.RuneError`, U+FFFD. A Go `rune` (a code point) is a `Nat`. -/
def RuneError : Nat := 0xFFFD

/-- The constant `utf8.RuneSelf`: bytes below it are single-byte runes. -/
def RuneSelf : Nat := 0x80

/-- The constant `utf8.UTFMax`: the longest encoding of a rune, in bytes. -/
def UTFMax : Nat := 4

/-- The table `first` of package `utf8`: information about the first byte of an encoding.
`0xF0` (`as`) is ASCII, `0xF1` (`xx`) is an invalid first byte; otherwise the low three bits
give the size of the encoding and the high four bits index `acceptRanges`. -/
def first (b : Byte) : Nat :=
  if b.val < 0x80 then 0xF0
  else if b.val < 0xC2 then 0xF1
  else if b.val < 0xE0 then 0x02
  else if b.val = 0xE0 then 0x13
  else if b.val < 0xED then 0x03
  else if b.val = 0xED then 0x23
  else if b.val < 0xF0 then 0x03
  else if b.val = 0xF0 then 0x34
  else if b.val < 0xF4 then 0x04
  else if b.val = 0xF4 then 0x44
  else 0xF1

/-- The table `acceptRanges` of package `utf8`: the range `(lo, hi)` allowed for the second
byte of an encoding. -/
def acceptRanges (k : Nat) : Nat × Nat :=
  if k = 0 then (0x80, 0xBF)
  else if k = 1 then (0xA0, 0xBF)
  else if k = 2 then (0x80, 0x9F)
  else if k = 3 then (0x90, 0xBF)
  else if k = 4 then (0x80, 0x8F)
  else (0, 0)

/-- The function `utf8.DecodeRuneInString`: the first rune of `s` and its width in bytes;
`(RuneError, 0)` for the empty string and `(RuneError, 1)` for an invalid encoding. Indexing
`s[k]` is `s.getD k 0`: the library reads `s[k]` only after checking `len(s) >= sz > k`. -/
def DecodeRuneInString (s : GoString) : Nat × Nat :=
  let n := s.length
  if n < 1 then (RuneError, 0)
  else
    let s0 := s.getD 0 0
    let x := first s0
    if x ≥ 0xF0 then
      (if x % 2 = 1 then RuneError else s0.val, 1)
    else
      let sz := x &&& 7
      let accept := acceptRanges (x >>> 4)
      if n < sz then (RuneError, 1)
      else
        let s1 := s.getD 1 0
        if s1.val < accept.1 ∨ accept.2 < s1.val then (RuneError, 1)
        else if sz ≤ 2 then (((s0.val &&& 0x1F) <<< 6) ||| (s1.val &&& 0x3F), 2)
        else
          let s2 := s.getD 2 0
          if s2.val < 0x80 ∨ 0xBF < s2.val then (RuneError, 1)
          else if sz ≤ 3 then
            (((s0.val &&& 0x0F) <<< 12) ||| ((s1.val &&& 0x3F) <<< 6) ||| (s2.val &&& 0x3F), 3)
          else
            let s3 := s.getD 3 0
            if s3.val < 0x80 ∨ 0xBF < s3.val then (RuneError, 1)
            else
              (((s0.val &&& 0x07) <<< 18) ||| ((s1.val &&& 0x3F) <<< 12) |||
                ((s2.val &&& 0x3F) <<< 6) ||| (s3.val &&& 0x3F), 4)

/-- The function `utf8.RuneStart`: the byte is not a continuation byte. -/
def RuneStart (b : Byte) : Bool := b.val &&& 0xC0 != 0x80

/-- The loop `for start--; start >= lim; start-- { if RuneStart(s[start]) { break } }` of
`DecodeLastRuneInString`, with `k = start - lim + 1` positions left to look at: the value of
`start` when the loop ends. -/
def scanRuneStart (s : GoString) (lim : Nat) : Nat → Int
  | 0 => (lim : Int) - 1
  | k + 1 => if RuneStart (s.getD (lim + k) 0) then ((lim + k : Nat) : Int)
    else scanRuneStart s lim k

/-- The function `utf8.DecodeLastRuneInString`: the last rune of `s` and its width. -/
def DecodeLastRuneInString (s : GoString) : Nat × Nat :=
  let e := s.length
  if e = 0 then (RuneError, 0)
  else
    let start := e - 1
    let r := (s.getD start 0).val
    if r < RuneSelf then (r, 1)
    else
      let lim := e - UTFMax
      let start := (scanRuneStart s lim (start - lim)).toNat
      let d := DecodeRuneInString (s.drop start)
      if start + d.2 ≠ e then (RuneError, 1) else d

/-! ## Go standard library, package `unicode` -/

/-- The function `unicode.IsSpace`: the Unicode property White_Space. In Latin-1 these are
`\t`, `\n`, `\v`, `\f`, `\r`, space, U+0085 and U+00A0; beyond Latin-1, U+1680, U+2000 to
U+200A, U+2028, U+2029, U+202F, U+205F and U+3000. -/
def IsSpace (r : Nat) : Bool :=
  if r ≤ 0xFF then
    r == 0x09 || r == 0x0A || r == 0x0B || r == 0x0C || r == 0x0D || r == 0x20 || r == 0x85 ||
      r == 0xA0
  else
    r == 0x1680 || (0x2000 ≤ r && r ≤ 0x200A) || r == 0x2028 || r == 0x2029 || r == 0x202F ||
      r == 0x205F || r == 0x3000

/-! ## Go standard library, package `strings` -/

/-- The table `asciiSpace` of package `strings`: `\t`, `\n`, `\v`, `\f`, `\r` and space. -/
def asciiSpace (c : Byte) : Bool :=
  c.val == 0x09 || c.val == 0x0A || c.val == 0x0B || c.val == 0x0C || c.val == 0x0D ||
    c.val == 0x20

/-- The loop `for i, r := range s { if f(r) == truth { return i } }; return -1` of
`strings.indexFunc`. The first argument is `s[i:]`; `pending` counts the bytes of the rune
decoded last over which the loop has still to step before it decodes the next rune. -/
def indexFuncFrom (f : Nat → Bool) (truth : Bool) : GoString → Nat → Nat → Int
  | [], _, _ => -1
  | _ :: rest, i, pending + 1 => indexFuncFrom f truth rest (i + 1) pending
  | c :: rest, i, 0 =>
    let d := DecodeRuneInString (c :: rest)
    if f d.1 == truth then (i : Int) else indexFuncFrom f truth rest (i + 1) (d.2 - 1)

/-- The function `strings.indexFunc`. -/
def indexFunc (s : GoString) (f : Nat → Bool) (truth : Bool) : Int :=
  indexFuncFrom f truth s 0 0

/-- The loop of `strings.lastIndexFunc`,
`for i := len(s); i > 0; { r, size := DecodeLastRuneInString(s[0:i]); i -= size;
if f(r) == truth { return i } }; return -1`, from `i` on; `pending` counts the bytes of the
rune decoded last over which `i` has still to step back. -/
def lastIndexFuncFrom (s : GoString) (f : Nat → Bool) (truth : Bool) : Nat → Nat → Int
  | 0, _ => -1
  | i + 1, pending + 1 => lastIndexFuncFrom s f truth i pending
  | i + 1, 0 =>
    let d := DecodeLastRuneInString (s.take (i + 1))
    if f d.1 == truth then ((i + 1 : Nat) : Int) - (d.2 : Int)
    else lastIndexFuncFrom s f truth i (d.2 - 1)

/-- The function `strings.lastIndexFunc`. -/
def lastIndexFunc (s : GoString) (f : Nat → Bool) (truth : Bool) : Int :=
  lastIndexFuncFrom s f truth s.length 0

/-- The function `strings.TrimLeftFunc`. -/
def TrimLeftFunc (s : GoString) (f : Nat → Bool) : GoString :=
  let i := indexFunc s f false
  if i = -1 then [] else s.drop i.toNat

/-- The function `strings.TrimRightFunc`. -/
def TrimRightFunc (s : GoString) (f : Nat → Bool) : GoString :=
  let i := lastIndexFunc s f false
  let i :=
    if 0 ≤ i ∧ (s.getD i.toNat 0).val ≥ RuneSelf then
      i + ((DecodeRuneInString (s.drop i.toNat)).2 : Int)
    else i + 1
  s.take i.toNat

/-- The function `strings.TrimFunc`. -/
def TrimFunc (s : GoString) (f : Nat → Bool) : GoString :=
  TrimRightFunc (TrimLeftFunc s f) f

/-- The second loop of `strings.TrimSpace`,
`for ; stop > start; stop-- { c := s[stop-1]; if c >= RuneSelf
{ return TrimRightFunc(s[start:stop], IsSpace) }; if asciiSpace[c] == 0 { break } }`
followed by `return s[start:stop]`. The first argument is `s[start:]`, the second is
`stop - start`. -/
def trimSpaceStop (t : GoString) : Nat → GoString
  | 0 => t.take 0
  | n + 1 =>
    let c := t.getD n 0
    if c.val ≥ RuneSelf then TrimRightFunc (t.take (n + 1)) IsSpace
    else if asciiSpace c == false then t.take (n + 1)
    else trimSpaceStop t n

/-- The first loop of `strings.TrimSpace`,
`for ; start < len(s); start++ { c := s[start]; if c >= RuneSelf
{ return TrimFunc(s[start:], IsSpace) }; if asciiSpace[c] == 0 { break } }`, followed by the
rest of the function. The argument is `s[start:]`. -/
def trimSpaceStart : GoString → GoString
  | [] => trimSpaceStop [] 0
  | c :: rest =>
    if c.val ≥ RuneSelf then TrimFunc (c :: rest) IsSpace
    else if asciiSpace c == false then trimSpaceStop (c :: rest) (c :: rest).length
    else trimSpaceStart rest

/-- The function `strings.TrimSpace`: `s` without its leading and trailing white space, as
defined by Unicode. -/
def TrimSpace (s : GoString) : GoString := trimSpaceStart s

/-- The function `strings.HasPrefix`. -/
def HasPrefix (s pre : GoString) : Bool :=
  decide (s.length ≥ pre.length) && s.take pre.length == pre

/-- The search of `strings.Index`, in `s[i:]`: the index in `s` of the first instance of
`substr`, or `-1`. -/
def indexFrom (substr : GoString) : GoString → Nat → Int
  | [], i => if HasPrefix [] substr then (i : Int) else -1
  | c :: rest, i => if HasPrefix (c :: rest) substr then (i : Int) else indexFrom substr rest (i + 1)

/-- The function `strings.Index`. -/
def Index (s substr : GoString) : Int := indexFrom substr s 0

/-- The function `strings.Contains`. -/
def Contains (s substr : GoString) : Bool := decide (Index s substr ≥ 0)

/-! ## `Config` (config.go) and `ShouldWrapCommand` (wrap.go) -/

/-- The type `Config`. -/
structure Config where
  Enabled : Bool
  AdditionalSafePatterns : List GoString
  AdditionalEscapeMarkers : List GoString
  ForceWrapPatterns : List GoString
  DebugLog : Bool
  LogFile : GoString

/-- The variable `EscapeMarkers`. -/
def EscapeMarkers : List GoString :=
  [ascii "# bypass-hook", ascii "# no-wrap", ascii "# skip-hook"]

/-- The loop `for _, marker := range markers { if strings.Contains(cmd, marker)
{ return false } }`: `true` when the loop leaves the function. -/
def markerFound (cmd : GoString) : List GoString → Bool
  | [] => false
  | marker :: rest => if Contains cmd marker then true else markerFound cmd rest

/-- The function `ShouldWrapCommand`. A `*Config` is `none` when it is nil; reading a field
through it is a bind in `Option`, so that a nil dereference gives `none`. -/
def ShouldWrapCommand (command : GoString) (config : Option Config) : Option Bool := do
  let cmd := TrimSpace command
  if cmd == [] || HasPrefix cmd (ascii "bash -c ") then pure false
  else
    let disabled ← if config.isSome then (do let c ← config; pure (!c.Enabled)) else pure false
    if disabled then pure false
    else if markerFound cmd EscapeMarkers then pure false
    else
      let found ←
        if config.isSome then (do let c ← config; pure (markerFound cmd c.AdditionalEscapeMarkers))
        else pure false
      if found then pure false else pure true

/-- The value `&Config{Enabled: true}`. -/
def enabledConfig : Config :=
  { Enabled := true, AdditionalSafePatterns := [], AdditionalEscapeMarkers := [],
    ForceWrapPatterns := [], DebugLog := false, LogFile := [] }

/-! ## The words of the specification -/

/-- White space as the specification lists it: space, tab, newline, carriage return. -/
def isListedSpace (b : Byte) : Bool :=
  b.val == 0x20 || b.val == 0x09 || b.val == 0x0A || b.val == 0x0D

/-- The command with its leading and trailing listed white space removed. Follows the words of
the specification, not the code. -/
def trimListed (c : GoString) : GoString :=
  ((c.dropWhile isListedSpace).reverse.dropWhile isListedSpace).reverse

/-! ## RFC 4648 base64, the reference the encoder is compared with -/

/-- RFC 4648, table 1 (the base 64 alphabet): the character standing for the 6-bit value `v`:
`0..25` are `A..Z`, `26..51` are `a..z`, `52..61` are `0..9`, `62` is `+` and `63` is `/`. -/
def b64Char (v : Nat) : Byte :=
  if v < 26 then Fin.ofNat (65 + v)
  else if v < 52 then Fin.ofNat (97 + (v - 26))
  else if v < 62 then Fin.ofNat (48 + (v - 52))
  else if v = 62 then 43
  else 47

/-- RFC 4648, table 1 read backwards: the 6-bit value of a character of the alphabet, `none` for
any other byte (`=` included). -/
def b64Value (ch : Byte) : Option Nat :=
  if 65 ≤ ch.val ∧ ch.val ≤ 90 then some (ch.val - 65)
  else if 97 ≤ ch.val ∧ ch.val ≤ 122 then some (ch.val - 97 + 26)
  else if 48 ≤ ch.val ∧ ch.val ≤ 57 then some (ch.val - 48 + 52)
  else if ch.val = 43 then some 62
  else if ch.val = 47 then some 63
  else none

/-- RFC 4648 section 4, standard encoding with padding and without line feeds: every 24-bit
group of three bytes gives four characters; a final group of 8 bits is padded with zero bits to
12 bits and gives two characters and `==`; a final group of 16 bits is padded to 18 bits and
gives three characters and `=`. Follows the RFC, not the code. -/
def rfc4648Encode : GoString → GoString
  | [] => []
  | [a] =>
    let n := a.val * 2 ^ 4
    [b64Char (n / 2 ^ 6), b64Char (n % 2 ^ 6), padByte, padByte]
  | [a, b] =>
    let n := (a.val * 2 ^ 8 + b.val) * 2 ^ 2
    [b64Char (n / 2 ^ 12), b64Char (n / 2 ^ 6 % 2 ^ 6), b64Char (n % 2 ^ 6), padByte]
  | a :: b :: c :: rest =>
    let n := a.val * 2 ^ 16 + b.val * 2 ^ 8 + c.val
    b64Char (n / 2 ^ 18) :: b64Char (n / 2 ^ 12 % 2 ^ 6) :: b64Char (n / 2 ^ 6 % 2 ^ 6) ::
      b64Char (n % 2 ^ 6) :: rfc4648Encode rest

/-- Decoding of a group of four alphabet characters into three bytes. -/
def decodeQuad (c0 c1 c2 c3 : Byte) : Option GoString := do
  let v0 ← b64Value c0
  let v1 ← b64Value c1
  let v2 ← b64Value c2
  let v3 ← b64Value c3
  let n := v0 * 2 ^ 18 + v1 * 2 ^ 12 + v2 * 2 ^ 6 + v3
  pure [Fin.ofNat (n / 2 ^ 16), Fin.ofNat (n / 2 ^ 8 % 2 ^ 8), Fin.ofNat (n % 2 ^ 8)]

/-- Decoding of the last group of four characters, which may end in `=` or `==`. The bits that
padding added must be zero (canonical encoding). -/
def decodeLast (c0 c1 c2 c3 : Byte) : Option GoString :=
  if c3 = padByte then
    if c2 = padByte then do
      let v0 ← b64Value c0
      let v1 ← b64Value c1
      let n := v0 * 2 ^ 6 + v1
      if n % 2 ^ 4 = 0 then pure [Fin.ofNat (n / 2 ^ 4)] else none
    else do
      let v0 ← b64Value c0
      let v1 ← b64Value c1
      let v2 ← b64Value c2
      let n := v0 * 2 ^ 12 + v1 * 2 ^ 6 + v2
      if n % 2 ^ 2 = 0 then pure [Fin.ofNat (n / 2 ^ 10), Fin.ofNat (n / 2 ^ 2 % 2 ^ 8)] else none
  else decodeQuad c0 c1 c2 c3

/-- A standard base64 decoder (RFC 4648 section 4, padding required, no characters outside the
alphabet accepted, no line feeds): `none` when the text is not a padded base64 text. -/
def rfc4648Decode : GoString → Option GoString
  | [] => some []
  | c0 :: c1 :: c2 :: c3 :: rest =>
    if rest.isEmpty then decodeLast c0 c1 c2 c3
    else do
      let bytes ← decodeQuad c0 c1 c2 c3
      let more ← rfc4648Decode rest
      pure (bytes ++ more)
  | _ => none

/-- A byte of the base64 alphabet `A-Z`, `a-z`, `0-9`, `+`, `/`. -/
def isAlphabetByte (ch : Byte) : Bool :=
  (65 ≤ ch.val && ch.val ≤ 90) || (97 ≤ ch.val && ch.val ≤ 122) ||
    (48 ≤ ch.val && ch.val ≤ 57) || ch.val == 43 || ch.val == 47

/-- A well-formed padded standard-base64 text: groups of four characters of the alphabet, the
last group alone may end in `=` or in `==`. -/
def wellFormedBase64 : GoString → Bool
  | [] => true
  | c0 :: c1 :: c2 :: c3 :: rest =>
    if rest.isEmpty then
      isAlphabetByte c0 && isAlphabetByte c1 &&
        ((isAlphabetByte c2 && isAlphabetByte c3) || (isAlphabetByte c2 && c3 == padByte) ||
          (c2 == padByte && c3 == padByte))
    else
      isAlphabetByte c0 && isAlphabetByte c1 && isAlphabetByte c2 && isAlphabetByte c3 &&
        wellFormedBase64 rest
  | _ => false

/-- A byte that base64 output may hold: a byte of the alphabet or `=`. -/
def isBase64Byte (ch : Byte) : Bool := isAlphabetByte ch || ch == padByte

/-! ## Auxiliary definitions of the proofs -/

/-- The result of `DecodeRuneInString` as a function of the length of the string and of its
first four bytes. -/
def decodeCore (n : Nat) (s0 s1 s2 s3 : Byte) : Nat × Nat :=
  let x := first s0
  if x ≥ 0xF0 then
    (if x % 2 = 1 then RuneError else s0.val, 1)
  else
    let sz := x &&& 7
    let accept := acceptRanges (x >>> 4)
    if n < sz then (RuneError, 1)
    else
      if s1.val < accept.1 ∨ accept.2 < s1.val then (RuneError, 1)
      else if sz ≤ 2 then (((s0.val &&& 0x1F) <<< 6) ||| (s1.val &&& 0x3F), 2)
      else
        if s2.val < 0x80 ∨ 0xBF < s2.val then (RuneError, 1)
        else if sz ≤ 3 then
          (((s0.val &&& 0x0F) <<< 12) ||| ((s1.val &&& 0x3F) <<< 6) ||| (s2.val &&& 0x3F), 3)
        else
          if s3.val < 0x80 ∨ 0xBF < s3.val then (RuneError, 1)
          else
            (((s0.val &&& 0x07) <<< 18) ||| ((s1.val &&& 0x3F) <<< 12) |||
              ((s2.val &&& 0x3F) <<< 6) ||| (s3.val &&& 0x3F), 4)

/-- A byte that `TrimSpace` may remove: an ASCII space or a byte of a rune outside ASCII. -/
def strippable (b : Byte) : Bool := asciiSpace b || decide (b.val ≥ 0x80)

/-! ## The encoder: bit operations as arithmetic -/

theorem alphabet_lookup : ∀ v, v < 64 → alphabet[v]? = some (b64Char v) := by decide

theorem b64Value_b64Char : ∀ v, v < 64 → b64Value (b64Char v) = some v := by decide

theorem b64Char_ne_pad : ∀ v, v < 64 → (b64Char v = padByte) = False := by decide

theorem isAlphabetByte_b64Char : ∀ v, v < 64 → isAlphabetByte (b64Char v) = true := by decide

theorem chunk_one (a : Byte) : u32 (a.val <<< 16) = a.val * 2 ^ 16 := by
  unfold u32
  rw [Nat.shiftLeft_eq]
  omega

theorem chunk_two (a b : Byte) :
    u32 (a.val <<< 16) ||| u32 (b.val <<< 8) = a.val * 2 ^ 16 + b.val * 2 ^ 8 := by
  unfold u32
  rw [Nat.shiftLeft_eq, Nat.shiftLeft_eq]
  have h1 : a.val * 2 ^ 16 % 2 ^ 32 = 2 ^ 16 * a.val := by omega
  have h2 : b.val * 2 ^ 8 % 2 ^ 32 = b.val * 2 ^ 8 := by omega
  have h3 : b.val * 2 ^ 8 < 2 ^ 16 := by omega
  rw [h1, h2, ← Nat.mul_add_lt_is_or h3]
  omega

theorem chunk_three (a b c : Byte) :
    u32 (a.val <<< 16) ||| u32 (b.val <<< 8) ||| u32 c.val =
      a.val * 2 ^ 16 + b.val * 2 ^ 8 + c.val := by
  rw [chunk_two]
  have h1 : u32 c.val = c.val := by unfold u32; omega
  have h2 : a.val * 2 ^ 16 + b.val * 2 ^ 8 = 2 ^ 8 * (a.val * 2 ^ 8 + b.val) := by omega
  have h3 : c.val < 2 ^ 8 := by omega
  rw [h1, h2, ← Nat.mul_add_lt_is_or h3]

theorem sextet_eq (n k : Nat) : n >>> k &&& 63 = n / 2 ^ k % 64 := by
  rw [show (63 : Nat) = 2 ^ 6 - 1 from rfl, Nat.and_pow_two_sub_one_eq_mod,
    Nat.shiftRight_eq_div_pow]

theorem sextet_low (n : Nat) : n &&& 63 = n % 64 := by
  rw [show (63 : Nat) = 2 ^ 6 - 1 from rfl, Nat.and_pow_two_sub_one_eq_mod]

theorem drop_facts {input : GoString} {i : Nat} {a : Byte} {tl : GoString}
    (h : input.drop i = a :: tl) :
    input[i]? = some a ∧ input.length - i = tl.length + 1 ∧ input.drop (i + 1) = tl := by
  refine ⟨?_, ?_, ?_⟩
  · have := List.getElem?_drop (L := input) (i := i) (j := 0)
    rw [h] at this
    simpa using this.symm
  · have := List.length_drop i input
    rw [h] at this
    simpa using this.symm
  · have : input.drop (i + 1) = (input.drop i).drop 1 := by
      rw [List.drop_drop, Nat.add_comm]
    rw [this, h]; rfl

theorem base64Step_one {input : GoString} {i : Nat} {a : Byte} (result : GoString)
    (h : input.drop i = [a]) :
    base64Step input i result = some (result ++ rfc4648Encode [a]) := by
  obtain ⟨h0, hlen, _⟩ := drop_facts h
  have e0 : (a.val * 65536) >>> 18 &&& 63 = a.val * 16 / 64 := by
    rw [sextet_eq]; norm_num; omega
  have e1 : (a.val * 65536) >>> 12 &&& 63 = a.val * 16 % 64 := by
    rw [sextet_eq]; norm_num; omega
  have hi0 : a.val * 16 / 64 < 64 := by omega
  have hi1 : a.val * 16 % 64 < 64 := by omega
  simp [base64Step, h0, hlen, chunk_one, e0, e1, alphabet_lookup _ hi0, alphabet_lookup _ hi1,
    rfc4648Encode]

theorem base64Step_two {input : GoString} {i : Nat} {a b : Byte} (result : GoString)
    (h : input.drop i = [a, b]) :
    base64Step input i result = some (result ++ rfc4648Encode [a, b]) := by
  obtain ⟨h0, hlen, h'⟩ := drop_facts h
  obtain ⟨h1, _, _⟩ := drop_facts h'
  have e0 : (a.val * 65536 + b.val * 256) >>> 18 &&& 63 = (a.val * 256 + b.val) * 4 / 4096 := by
    rw [sextet_eq]; norm_num; omega
  have e1 : (a.val * 65536 + b.val * 256) >>> 12 &&& 63 =
      (a.val * 256 + b.val) * 4 / 64 % 64 := by
    rw [sextet_eq]; norm_num; omega
  have e2 : (a.val * 65536 + b.val * 256) >>> 6 &&& 63 = (a.val * 256 + b.val) * 4 % 64 := by
    rw [sextet_eq]; norm_num; omega
  have hi0 : (a.val * 256 + b.val) * 4 / 4096 < 64 := by omega
  have hi1 : (a.val * 256 + b.val) * 4 / 64 % 64 < 64 := by omega
  have hi2 : (a.val * 256 + b.val) * 4 % 64 < 64 := by omega
  have hc := chunk_two a b
  norm_num at hc
  simp [base64Step, h0, h1, hlen, hc, e0, e1, e2, alphabet_lookup _ hi0, alphabet_lookup _ hi1,
    alphabet_lookup _ hi2, rfc4648Encode]

theorem base64Step_three {input : GoString} {i : Nat} {a b c : Byte} {rest : GoString}
    (result : GoString) (h : input.drop i = a :: b :: c :: rest) :
    base64Step input i result =
      some (result ++ (rfc4648Encode (a :: b :: c :: rest)).take 4) := by
  obtain ⟨h0, hlen, h'⟩ := drop_facts h
  obtain ⟨h1, _, h''⟩ := drop_facts h'
  have h2 : input[i + 2]? = some c := (drop_facts h'').1
  have e0 : (a.val * 65536 + b.val * 256 + c.val) >>> 18 &&& 63 =
      (a.val * 65536 + b.val * 256 + c.val) / 262144 := by
    rw [sextet_eq]; norm_num; omega
  have e1 : (a.val * 65536 + b.val * 256 + c.val) >>> 12 &&& 63 =
      (a.val * 65536 + b.val * 256 + c.val) / 4096 % 64 := by
    rw [sextet_eq]; norm_num
  have e2 : (a.val * 65536 + b.val * 256 + c.val) >>> 6 &&& 63 =
      (a.val * 65536 + b.val * 256 + c.val) / 64 % 64 := by
    rw [sextet_eq]; norm_num
  have e3 : (a.val * 65536 + b.val * 256 + c.val) &&& 63 =
      (a.val * 65536 + b.val * 256 + c.val) % 64 := sextet_low _
  have hi0 : (a.val * 65536 + b.val * 256 + c.val) / 262144 < 64 := by omega
  have hi1 : (a.val * 65536 + b.val * 256 + c.val) / 4096 % 64 < 64 := by omega
  have hi2 : (a.val * 65536 + b.val * 256 + c.val) / 64 % 64 < 64 := by omega
  have hi3 : (a.val * 65536 + b.val * 256 + c.val) % 64 < 64 := by omega
  have hc := chunk_three a b c
  norm_num at hc
  simp [base64Step, h0, h1, h2, hlen, hc, e0, e1, e2, e3, alphabet_lookup _ hi0,
    alphabet_lookup _ hi1, alphabet_lookup _ hi2, alphabet_lookup _ hi3, rfc4648Encode]

theorem base64Loop_eq (input : GoString) :
    ∀ (fuel i : Nat) (result : GoString), input.length - i ≤ fuel →
      base64Loop input fuel i result = some (result ++ rfc4648Encode (input.drop i)) := by
  intro fuel
  induction fuel with
  | zero =>
    intro i result hf
    have hi : ¬ i < input.length := by omega
    have hd : input.drop i = [] := List.drop_eq_nil_of_le (by omega)
    simp [base64Loop, hi, hd, rfc4648Encode]
  | succ fuel ih =>
    intro i result hf
    by_cases hi : i < input.length
    · rw [base64Loop, if_pos hi]
      rcases hd : input.drop i with _ | ⟨a, _ | ⟨b, _ | ⟨c, rest⟩⟩⟩
      · have := List.length_drop i input
        rw [hd] at this
        simp at this
        omega
      · have hd3 : input.drop (i + 3) = [] := by
          rw [← List.drop_drop, hd]; rfl
        rw [base64Step_one result hd, Option.some_bind, ih _ _ (by omega), hd3]
        simp [rfc4648Encode]
      · have hd3 : input.drop (i + 3) = [] := by
          rw [← List.drop_drop, hd]; rfl
        rw [base64Step_two result hd, Option.some_bind, ih _ _ (by omega), hd3]
        simp [rfc4648Encode]
      · have hd3 : input.drop (i + 3) = rest := by
          rw [← List.drop_drop, hd]; rfl
        rw [base64Step_three result hd, Option.some_bind, ih _ _ (by omega), hd3]
        simp [rfc4648Encode]
    · have hd : input.drop i = [] := List.drop_eq_nil_of_le (by omega)
      simp [base64Loop, hi, hd, rfc4648Encode]

theorem base64Encode_eq (s : GoString) : base64Encode s = some (rfc4648Encode s) := by
  unfold base64Encode
  rw [base64Loop_eq s s.length 0 [] (by omega)]
  simp

/-! ## The encoder: round trip, well-formedness, output alphabet -/

theorem byte_ofNat_eq (a : Byte) (x : Nat) (h : x = a.val) : (Fin.ofNat x : Byte) = a := by
  subst h
  apply Fin.ext
  simp [Fin.ofNat]

theorem decodeQuad_encode (a b c : Byte) :
    decodeQuad (b64Char ((a.val * 2 ^ 16 + b.val * 2 ^ 8 + c.val) / 2 ^ 18))
      (b64Char ((a.val * 2 ^ 16 + b.val * 2 ^ 8 + c.val) / 2 ^ 12 % 2 ^ 6))
      (b64Char ((a.val * 2 ^ 16 + b.val * 2 ^ 8 + c.val) / 2 ^ 6 % 2 ^ 6))
      (b64Char ((a.val * 2 ^ 16 + b.val * 2 ^ 8 + c.val) % 2 ^ 6)) = some [a, b, c] := by
  have h0 : (a.val * 2 ^ 16 + b.val * 2 ^ 8 + c.val) / 2 ^ 18 < 64 := by omega
  have h1 : (a.val * 2 ^ 16 + b.val * 2 ^ 8 + c.val) / 2 ^ 12 % 2 ^ 6 < 64 := by omega
  have h2 : (a.val * 2 ^ 16 + b.val * 2 ^ 8 + c.val) / 2 ^ 6 % 2 ^ 6 < 64 := by omega
  have h3 : (a.val * 2 ^ 16 + b.val * 2 ^ 8 + c.val) % 2 ^ 6 < 64 := by omega
  simp only [decodeQuad, b64Value_b64Char _ h0, b64Value_b64Char _ h1, b64Value_b64Char _ h2,
    b64Value_b64Char _ h3, Option.bind_eq_bind, Option.some_bind, Option.pure_def]
  congr 2
  · exact byte_ofNat_eq a _ (by omega)
  · congr 1
    · exact byte_ofNat_eq b _ (by omega)
    · congr 1
      exact byte_ofNat_eq c _ (by omega)

theorem rfc4648Encode_eq_nil {s : GoString} (h : rfc4648Encode s = []) : s = [] := by
  rcases s with _ | ⟨a, _ | ⟨b, _ | ⟨c, rest⟩⟩⟩ <;> simp [rfc4648Encode] at h ⊢

theorem rfc4648_roundtrip (s : GoString) : rfc4648Decode (rfc4648Encode s) = some s := by
  induction s using rfc4648Encode.induct with
  | case1 => rfl
  | case2 a =>
    have h0 : a.val * 2 ^ 4 / 2 ^ 6 < 64 := by omega
    have h1 : a.val * 2 ^ 4 % 2 ^ 6 < 64 := by omega
    simp only [rfc4648Encode, rfc4648Decode, List.isEmpty_nil, if_true, decodeLast,
      b64Value_b64Char _ h0, b64Value_b64Char _ h1, Option.bind_eq_bind, Option.some_bind,
      Option.pure_def]
    rw [if_pos (by omega)]
    exact congrArg (fun x => some [x]) (byte_ofNat_eq a _ (by omega))
  | case3 a b =>
    have h0 : (a.val * 2 ^ 8 + b.val) * 2 ^ 2 / 2 ^ 12 < 64 := by omega
    have h1 : (a.val * 2 ^ 8 + b.val) * 2 ^ 2 / 2 ^ 6 % 2 ^ 6 < 64 := by omega
    have h2 : (a.val * 2 ^ 8 + b.val) * 2 ^ 2 % 2 ^ 6 < 64 := by omega
    simp only [rfc4648Encode, rfc4648Decode, List.isEmpty_nil, if_true, decodeLast,
      b64Char_ne_pad _ h2, if_false,
      b64Value_b64Char _ h0, b64Value_b64Char _ h1, b64Value_b64Char _ h2, Option.bind_eq_bind,
      Option.some_bind, Option.pure_def]
    rw [if_pos (by omega)]
    have ea := byte_ofNat_eq a (((a.val * 2 ^ 8 + b.val) * 2 ^ 2 / 2 ^ 12 * 2 ^ 12 +
      (a.val * 2 ^ 8 + b.val) * 2 ^ 2 / 2 ^ 6 % 2 ^ 6 * 2 ^ 6 +
      (a.val * 2 ^ 8 + b.val) * 2 ^ 2 % 2 ^ 6) / 2 ^ 10) (by omega)
    have eb := byte_ofNat_eq b (((a.val * 2 ^ 8 + b.val) * 2 ^ 2 / 2 ^ 12 * 2 ^ 12 +
      (a.val * 2 ^ 8 + b.val) * 2 ^ 2 / 2 ^ 6 % 2 ^ 6 * 2 ^ 6 +
      (a.val * 2 ^ 8 + b.val) * 2 ^ 2 % 2 ^ 6) / 2 ^ 2 % 2 ^ 8) (by omega)
    rw [ea, eb]
  | case4 a b c rest ih =>
    have h3 : (a.val * 2 ^ 16 + b.val * 2 ^ 8 + c.val) % 2 ^ 6 < 64 := by omega
    rw [rfc4648Encode, rfc4648Decode]
    by_cases hr : (rfc4648Encode rest).isEmpty = true
    · have hnil : rfc4648Encode rest = [] := List.isEmpty_iff.mp hr
      have hrest : rest = [] := rfc4648Encode_eq_nil hnil
      rw [if_pos hr, decodeLast, if_neg (by rw [b64Char_ne_pad _ h3]; exact not_false),
        decodeQuad_encode, hrest]
    · rw [if_neg hr, decodeQuad_encode, ih]
      rfl

/-! ## UTF-8 decoding -/

theorem decode_eq_core (s : GoString) (h : s ≠ []) :
    DecodeRuneInString s =
      decodeCore s.length (s.getD 0 0) (s.getD 1 0) (s.getD 2 0) (s.getD 3 0) := by
  have hl : ¬ s.length < 1 := by
    cases s with
    | nil => exact absurd rfl h
    | cons a t => simp
  unfold DecodeRuneInString decodeCore
  simp only [hl, if_false]

theorem first_spec : ∀ a : Byte,
    (first a = 0xF0 ∧ a.val < 0x80) ∨ (first a = 0xF1 ∧ 0x80 ≤ a.val) ∨
    (first a < 0xF0 ∧ 2 ≤ first a &&& 7 ∧ first a &&& 7 ≤ 4 ∧
      0x80 ≤ (acceptRanges (first a >>> 4)).1 ∧
      (acceptRanges (first a >>> 4)).2 ≤ 0xBF ∧ 0xC2 ≤ a.val) := by
  decide

theorem isSpace_runeError : IsSpace RuneError = false := by decide

theorem isSpace_ascii (a : Byte) (h : a.val < 0x80) (hs : IsSpace a.val = true) :
    asciiSpace a = true := by
  unfold IsSpace at hs
  unfold asciiSpace
  have h255 : a.val ≤ 0xFF := by omega
  rw [if_pos h255] at hs
  simp only [Bool.or_eq_true, beq_iff_eq] at hs ⊢
  omega

theorem decodeCore_width (n : Nat) (s0 s1 s2 s3 : Byte) (hn : 1 ≤ n) :
    1 ≤ (decodeCore n s0 s1 s2 s3).2 ∧ (decodeCore n s0 s1 s2 s3).2 ≤ n ∧
      (decodeCore n s0 s1 s2 s3).2 ≤ 4 ∧
      (2 ≤ (decodeCore n s0 s1 s2 s3).2 → 0x80 ≤ s0.val ∧ 0x80 ≤ s1.val) ∧
      (3 ≤ (decodeCore n s0 s1 s2 s3).2 → 0x80 ≤ s2.val) ∧
      (4 ≤ (decodeCore n s0 s1 s2 s3).2 → 0x80 ≤ s3.val) ∧
      (IsSpace (decodeCore n s0 s1 s2 s3).1 = true → (decodeCore n s0 s1 s2 s3).2 = 1 →
        asciiSpace s0 = true) := by
  unfold decodeCore
  have hf := first_spec s0
  generalize first s0 = x at hf ⊢
  rcases hf with ⟨hx, hlt⟩ | ⟨hx, hge⟩ | ⟨hx, h2, h4, hlo, hhi, hs0⟩
  · subst hx
    rw [if_pos (show (0xF0 : Nat) ≥ 0xF0 by decide),
      if_neg (show ¬ (0xF0 : Nat) % 2 = 1 by decide)]
    dsimp only
    refine ⟨Nat.le_refl _, hn, by omega, by omega, by omega, by omega, ?_⟩
    intro hsp _
    exact isSpace_ascii s0 hlt hsp
  · subst hx
    rw [if_pos (show (0xF1 : Nat) ≥ 0xF0 by decide),
      if_pos (show (0xF1 : Nat) % 2 = 1 by decide)]
    dsimp only
    refine ⟨Nat.le_refl _, hn, by omega, by omega, by omega, by omega, ?_⟩
    intro hsp _
    rw [isSpace_runeError] at hsp
    exact absurd hsp (by decide)
  · have hnx : ¬ x ≥ 0xF0 := by omega
    rw [if_neg hnx]
    generalize x &&& 7 = sz at h2 h4 ⊢
    generalize acceptRanges (x >>> 4) = acc at hlo hhi ⊢
    dsimp only
    split_ifs <;>
      refine ⟨by omega, by omega, by omega, ?_, ?_, ?_, ?_⟩ <;>
      intros <;> first | omega | contradiction

theorem decodeCore_stable (n m : Nat) (s0 s1 s2 s3 t1 t2 t3 : Byte) (hn : 1 ≤ n) (hm : n ≤ m)
    (e1 : 1 < n → t1 = s1) (l1 : ¬ 1 < n → t1.val < 0x80)
    (e2 : 2 < n → t2 = s2) (l2 : ¬ 2 < n → t2.val < 0x80)
    (e3 : 3 < n → t3 = s3) (l3 : ¬ 3 < n → t3.val < 0x80) :
    decodeCore m s0 t1 t2 t3 = decodeCore n s0 s1 s2 s3 := by
  unfold decodeCore
  have hf := first_spec s0
  generalize first s0 = x at hf ⊢
  rcases hf with ⟨hx, _⟩ | ⟨hx, _⟩ | ⟨hx, h2, h4, hlo, hhi, _⟩
  · subst hx; rfl
  · subst hx; rfl
  · have hnx : ¬ x ≥ 0xF0 := by omega
    rw [if_neg hnx, if_neg hnx]
    generalize x &&& 7 = sz at h2 h4 ⊢
    generalize acceptRanges (x >>> 4) = acc at hlo hhi ⊢
    dsimp only
    by_cases hsz : n < sz
    · rw [if_pos hsz]
      by_cases hmz : m < sz
      · rw [if_pos hmz]
      · rw [if_neg hmz]
        by_cases c1 : 1 < n
        · by_cases c2 : 2 < n
          · have := l3 (by omega)
            have h3 : ¬ sz ≤ 3 := by omega
            have h2 : ¬ sz ≤ 2 := by omega
            simp only [h2, h3, if_false]
            have hc : t3.val < 0x80 ∨ 0xBF < t3.val := Or.inl this
            simp only [hc, if_true, ite_self]
          · have := l2 c2
            have h2 : ¬ sz ≤ 2 := by omega
            simp only [h2, if_false]
            have hc : t2.val < 0x80 ∨ 0xBF < t2.val := Or.inl this
            simp only [hc, if_true, ite_self]
        · have := l1 c1
          have hc : t1.val < acc.1 ∨ acc.2 < t1.val := Or.inl (by omega)
          rw [if_pos hc]
    · have hmz : ¬ m < sz := by omega
      rw [if_neg hsz, if_neg hmz]
      have := e1 (by omega)
      subst this
      by_cases h2 : sz ≤ 2
      · simp only [h2, if_true]
      · have := e2 (by omega)
        subst this
        by_cases h3 : sz ≤ 3
        · simp only [h3, if_true]
        · have := e3 (by omega)
          subst this
          rfl

theorem getD_ascii (r : GoString) (hr : ∀ b ∈ r, b.val < 0x80) (j : Nat) :
    (r.getD j 0).val < 0x80 := by
  rw [List.getD_eq_getElem?_getD]
  rcases h : r[j]? with _ | b
  · simp
  · have hb : b ∈ r := List.getElem?_mem h
    simpa using hr b hb

theorem getD_append_cases (y r : GoString) (hr : ∀ b ∈ r, b.val < 0x80) (k : Nat) :
    (k < y.length → (y ++ r).getD k 0 = y.getD k 0) ∧
      (¬ k < y.length → ((y ++ r).getD k 0).val < 0x80) := by
  constructor
  · intro h
    exact List.getD_append y r 0 k h
  · intro h
    rw [List.getD_append_right y r 0 k (by omega)]
    exact getD_ascii r hr _

theorem decode_append (y r : GoString) (hy : y ≠ []) (hr : ∀ b ∈ r, b.val < 0x80) :
    DecodeRuneInString (y ++ r) = DecodeRuneInString y := by
  have hyl : 1 ≤ y.length := by
    cases y with
    | nil => exact absurd rfl hy
    | cons a t => simp
  rw [decode_eq_core (y ++ r) (by simp [hy]), decode_eq_core y hy]
  have h0 : (y ++ r).getD 0 0 = y.getD 0 0 := (getD_append_cases y r hr 0).1 (by omega)
  rw [h0]
  exact decodeCore_stable y.length (y ++ r).length _ _ _ _ _ _ _ hyl (by simp)
    (getD_append_cases y r hr 1).1 (getD_append_cases y r hr 1).2
    (getD_append_cases y r hr 2).1 (getD_append_cases y r hr 2).2
    (getD_append_cases y r hr 3).1 (getD_append_cases y r hr 3).2

theorem mem_take_cases (s : GoString) (w : Nat) (hw : w ≤ 4) (b : Byte) (hb : b ∈ s.take w) :
    (1 ≤ w ∧ b = s.getD 0 0) ∨ (2 ≤ w ∧ b = s.getD 1 0) ∨ (3 ≤ w ∧ b = s.getD 2 0) ∨
      (4 ≤ w ∧ b = s.getD 3 0) := by
  rw [List.mem_take_iff_getElem] at hb
  obtain ⟨i, hi, rfl⟩ := hb
  have hi4 : i < 4 := by omega
  have hg : s.getD i 0 = s[i] := by
    rw [List.getD_eq_getElem?_getD, List.getElem?_eq_getElem (by omega)]; rfl
  interval_cases i
  · exact Or.inl ⟨by omega, hg.symm⟩
  · exact Or.inr (Or.inl ⟨by omega, hg.symm⟩)
  · exact Or.inr (Or.inr (Or.inl ⟨by omega, hg.symm⟩))
  · exact Or.inr (Or.inr (Or.inr ⟨by omega, hg.symm⟩))

theorem strippable_of_high (b : Byte) (h : 0x80 ≤ b.val) : strippable b = true := by
  unfold strippable
  simp [h]

theorem strippable_of_asciiSpace (b : Byte) (h : asciiSpace b = true) : strippable b = true := by
  unfold strippable
  simp [h]

theorem decode_width (s : GoString) (hs : s ≠ []) :
    1 ≤ (DecodeRuneInString s).2 ∧ (DecodeRuneInString s).2 ≤ s.length ∧
      (∀ b ∈ (s.take (DecodeRuneInString s).2).drop 1, 0x80 ≤ b.val) ∧
      (IsSpace (DecodeRuneInString s).1 = true →
        ∀ b ∈ s.take (DecodeRuneInString s).2, strippable b = true) := by
  have hl : 1 ≤ s.length := by
    cases s with
    | nil => exact absurd rfl hs
    | cons a t => simp
  rw [decode_eq_core s hs]
  obtain ⟨h1, hn, h4, w2, w3, w4, hsp⟩ :=
    decodeCore_width s.length (s.getD 0 0) (s.getD 1 0) (s.getD 2 0) (s.getD 3 0) hl
  generalize decodeCore s.length (s.getD 0 0) (s.getD 1 0) (s.getD 2 0) (s.getD 3 0) = d at *
  have hhigh : ∀ b ∈ (s.take d.2).drop 1, 0x80 ≤ b.val := by
    intro b hb
    cases s with
    | nil => exact absurd rfl hs
    | cons a t =>
      have hd : d.2 = (d.2 - 1) + 1 := by omega
      rw [hd, List.take_succ_cons, List.drop_one, List.tail_cons] at hb
      rw [List.mem_take_iff_getElem] at hb
      obtain ⟨i, hi, rfl⟩ := hb
      have hi3 : i < 3 := by omega
      have hg : (a :: t).getD (i + 1) 0 = t[i] := by
        rw [List.getD_eq_getElem?_getD, List.getElem?_cons_succ,
          List.getElem?_eq_getElem (by omega)]; rfl
      interval_cases i
      · rw [← hg]; exact (w2 (by omega)).2
      · rw [← hg]; exact w3 (by omega)
      · rw [← hg]; exact w4 (by omega)
  refine ⟨h1, hn, hhigh, ?_⟩
  intro hspace b hb
  by_cases hw : d.2 = 1
  · have := hsp hspace hw
    rw [hw] at hb
    rcases mem_take_cases s 1 (by omega) b hb with ⟨_, e⟩ | ⟨c, _⟩ | ⟨c, _⟩ | ⟨c, _⟩
    · rw [e]; exact strippable_of_asciiSpace _ this
    · omega
    · omega
    · omega
  · rcases mem_take_cases s d.2 h4 b hb with ⟨_, e⟩ | ⟨c, e⟩ | ⟨c, e⟩ | ⟨c, e⟩
    · rw [e]; exact strippable_of_high _ (w2 (by omega)).1
    · rw [e]; exact strippable_of_high _ (w2 c).2
    · rw [e]; exact strippable_of_high _ (w3 c)
    · rw [e]; exact strippable_of_high _ (w4 c)

theorem scanRuneStart_bound (s : GoString) (lim : Nat) :
    ∀ k, scanRuneStart s lim k ≤ (lim : Int) + k - 1 := by
  intro k
  induction k with
  | zero => simp [scanRuneStart]
  | succ k ih =>
    unfold scanRuneStart
    split_ifs
    · push_cast; omega
    · push_cast; omega

theorem getD_last (u : GoString) (b : Byte) : (u ++ [b]).getD ((u ++ [b]).length - 1) 0 = b := by
  rw [List.getD_append_right u [b] 0 _ (by simp)]
  simp

theorem decodeLast_ascii (u : GoString) (b : Byte) (hb : b.val < 0x80) :
    DecodeLastRuneInString (u ++ [b]) = (b.val, 1) := by
  unfold DecodeLastRuneInString
  have he : ¬ (u ++ [b]).length = 0 := by simp
  simp only [he, if_false, getD_last, RuneSelf, hb, if_true]

theorem decodeLast_width (t : GoString) (ht : t ≠ []) :
    1 ≤ (DecodeLastRuneInString t).2 ∧ (DecodeLastRuneInString t).2 ≤ t.length ∧
      (∀ b ∈ t.drop (t.length - (DecodeLastRuneInString t).2 + 1), strippable b = true) ∧
      (IsSpace (DecodeLastRuneInString t).1 = true →
        ∀ b ∈ t.drop (t.length - (DecodeLastRuneInString t).2), strippable b = true) := by
  have hl : 1 ≤ t.length := by
    cases t with
    | nil => exact absurd rfl ht
    | cons a u => simp
  have he : ¬ t.length = 0 := by omega
  have hnil : t.drop (t.length - 1 + 1) = [] := List.drop_eq_nil_of_le (by omega)
  unfold DecodeLastRuneInString
  simp only [he, if_false]
  by_cases hr : (t.getD (t.length - 1) 0).val < RuneSelf
  · simp only [hr, if_true]
    refine ⟨by omega, hl, ?_, ?_⟩
    · rw [hnil]; intro b hb; exact absurd hb (List.not_mem_nil b)
    · intro hsp b hb
      have hd : t.drop (t.length - 1) = [t.getD (t.length - 1) 0] := by
        rw [List.drop_eq_getElem_cons (by omega), hnil, List.getD_eq_getElem?_getD,
          List.getElem?_eq_getElem (by omega)]
        rfl
      rw [hd] at hb
      rw [List.mem_singleton] at hb
      rw [hb]
      exact strippable_of_asciiSpace _ (isSpace_ascii _ hr hsp)
  · simp only [hr, if_false]
    generalize hst : (scanRuneStart t (t.length - UTFMax)
      (t.length - 1 - (t.length - UTFMax))).toNat = start
    have hb := scanRuneStart_bound t (t.length - UTFMax) (t.length - 1 - (t.length - UTFMax))
    have hstart : start < t.length := by
      rw [← hst]
      unfold UTFMax at hb ⊢
      omega
    have hne : t.drop start ≠ [] := by
      intro h
      have := List.length_drop start t
      rw [h] at this
      simp at this
      omega
    obtain ⟨w1, w2, w3, w4⟩ := decode_width (t.drop start) hne
    rw [List.length_drop] at w2
    by_cases hs : start + (DecodeRuneInString (t.drop start)).2 ≠ t.length
    · rw [if_pos hs]
      refine ⟨by omega, hl, ?_, ?_⟩
      · rw [hnil]; intro b hb; exact absurd hb (List.not_mem_nil b)
      · intro hsp
        rw [isSpace_runeError] at hsp
        exact absurd hsp (by decide)
    · rw [if_neg hs]
      have hs' : start + (DecodeRuneInString (t.drop start)).2 = t.length := by
        simpa using hs
      have htake : (t.drop start).take (DecodeRuneInString (t.drop start)).2 = t.drop start :=
        List.take_of_length_le (by rw [List.length_drop]; omega)
      rw [htake] at w3 w4
      have e1 : t.length - (DecodeRuneInString (t.drop start)).2 = start := by omega
      refine ⟨w1, by omega, ?_, ?_⟩
      · rw [e1]
        intro b hb
        rw [List.drop_drop] at w3
        exact strippable_of_high _ (w3 b hb)
      · rw [e1]
        exact w4

/-! ## The loops of `TrimLeftFunc` and `TrimRightFunc` -/

theorem listedSpace_facts : ∀ b : Byte, isListedSpace b = true →
    b.val < 0x80 ∧ asciiSpace b = true ∧ IsSpace b.val = true := by
  decide

theorem decode_ascii (c : Byte) (rest : GoString) (hc : c.val < 0x80) :
    DecodeRuneInString (c :: rest) = (c.val, 1) := by
  rw [decode_eq_core _ (List.cons_ne_nil c rest)]
  unfold decodeCore
  have : (c :: rest).getD 0 0 = c := rfl
  rw [this]
  rcases first_spec c with ⟨hx, _⟩ | ⟨_, h⟩ | ⟨_, _, _, _, _, h⟩
  · rw [hx]; rfl
  · omega
  · omega

theorem indexFuncFrom_spec : ∀ (t : GoString) (i p : Nat),
    (∀ b ∈ t.take p, strippable b = true) →
    (indexFuncFrom IsSpace false t i p = -1 ∧ ∀ b ∈ t, strippable b = true) ∨
    (∃ j, j < t.length ∧ indexFuncFrom IsSpace false t i p = ((i + j : Nat) : Int) ∧
      ∀ b ∈ t.take j, strippable b = true) := by
  intro t
  induction t with
  | nil =>
    intro i p _
    left
    exact ⟨by rw [indexFuncFrom], fun b hb => absurd hb (List.not_mem_nil b)⟩
  | cons c rest ih =>
    have step : ∀ (i q : Nat), strippable c = true →
        (∀ b ∈ rest.take q, strippable b = true) →
        (indexFuncFrom IsSpace false rest (i + 1) q = -1 ∧
          ∀ b ∈ c :: rest, strippable b = true) ∨
        (∃ j, j < (c :: rest).length ∧
          indexFuncFrom IsSpace false rest (i + 1) q = ((i + j : Nat) : Int) ∧
          ∀ b ∈ (c :: rest).take j, strippable b = true) := by
      intro i q hc hq
      rcases ih (i + 1) q hq with ⟨h1, h2⟩ | ⟨j, hj, h1, h2⟩
      · left
        refine ⟨h1, ?_⟩
        intro b hb
        rcases List.mem_cons.mp hb with rfl | hb
        · exact hc
        · exact h2 b hb
      · right
        refine ⟨j + 1, by simpa using hj, ?_, ?_⟩
        · rw [h1]; congr 1; omega
        · intro b hb
          rw [List.take_succ_cons] at hb
          rcases List.mem_cons.mp hb with rfl | hb
          · exact hc
          · exact h2 b hb
    intro i p hp
    cases p with
    | succ q =>
      rw [indexFuncFrom]
      rw [List.take_succ_cons] at hp
      exact step i q (hp c (List.mem_cons_self c _))
        (fun b hb => hp b (List.mem_cons_of_mem c hb))
    | zero =>
      rw [indexFuncFrom]
      by_cases hsp : IsSpace (DecodeRuneInString (c :: rest)).1 = true
      · have hne : ¬ ((IsSpace (DecodeRuneInString (c :: rest)).1 == false) = true) := by
          rw [hsp]; decide
        rw [if_neg hne]
        obtain ⟨w1, _, _, w4⟩ := decode_width (c :: rest) (List.cons_ne_nil c rest)
        have hd : (DecodeRuneInString (c :: rest)).2 =
            ((DecodeRuneInString (c :: rest)).2 - 1) + 1 := by omega
        have hall := w4 hsp
        rw [hd, List.take_succ_cons] at hall
        exact step i _ (hall c (List.mem_cons_self c _))
          (fun b hb => hall b (List.mem_cons_of_mem c hb))
      · have hpos : (IsSpace (DecodeRuneInString (c :: rest)).1 == false) = true := by
          simpa using hsp
        rw [if_pos hpos]
        right
        exact ⟨0, by simp, by simp, fun b hb => absurd hb (by simp)⟩

theorem indexFuncFrom_spaces (r : GoString) (hr : ∀ b ∈ r, isListedSpace b = true) :
    ∀ i, indexFuncFrom IsSpace false r i 0 = -1 := by
  induction r with
  | nil => intro i; rw [indexFuncFrom]
  | cons c rest ih =>
    intro i
    obtain ⟨h1, _, h3⟩ := listedSpace_facts c (hr c (List.mem_cons_self c _))
    rw [indexFuncFrom, decode_ascii c rest h1]
    dsimp only
    have hne : ¬ ((IsSpace c.val == false) = true) := by rw [h3]; decide
    rw [if_neg hne]
    exact ih (fun b hb => hr b (List.mem_cons_of_mem c hb)) (i + 1)

theorem listed_ascii (r : GoString) (hr : ∀ b ∈ r, isListedSpace b = true) :
    ∀ b ∈ r, b.val < 0x80 :=
  fun b hb => (listedSpace_facts b (hr b hb)).1

theorem indexFuncFrom_append (r : GoString) (hr : ∀ b ∈ r, isListedSpace b = true) :
    ∀ (t : GoString) (i p : Nat), p ≤ t.length →
      indexFuncFrom IsSpace false (t ++ r) i p = indexFuncFrom IsSpace false t i p := by
  intro t
  induction t with
  | nil =>
    intro i p hp
    have : p = 0 := by simpa using hp
    subst this
    rw [List.nil_append, indexFuncFrom_spaces r hr i, indexFuncFrom]
  | cons c rest ih =>
    intro i p hp
    cases p with
    | succ q =>
      rw [List.cons_append, indexFuncFrom, indexFuncFrom]
      exact ih (i + 1) q (by simpa using hp)
    | zero =>
      rw [List.cons_append, indexFuncFrom, indexFuncFrom, ← List.cons_append,
        decode_append (c :: rest) r (List.cons_ne_nil c rest) (listed_ascii r hr)]
      obtain ⟨_, w2, _, _⟩ := decode_width (c :: rest) (List.cons_ne_nil c rest)
      rw [ih (i + 1) _ (by simp at w2; omega)]

theorem trimLeft_spec (s : GoString) :
    ∃ j, j ≤ s.length ∧ TrimLeftFunc s IsSpace = s.drop j ∧
      ∀ b ∈ s.take j, strippable b = true := by
  unfold TrimLeftFunc indexFunc
  rcases indexFuncFrom_spec s 0 0 (fun b hb => absurd hb (by simp)) with
    ⟨h1, h2⟩ | ⟨j, hj, h1, h2⟩
  · refine ⟨s.length, Nat.le_refl _, ?_, ?_⟩
    · simp [h1]
    · rw [List.take_length]; exact h2
  · refine ⟨j, by omega, ?_, h2⟩
    rw [h1]
    have : ¬ (((0 + j : Nat) : Int) = -1) := by omega
    simp [this]

theorem trimLeft_append (x r : GoString) (hr : ∀ b ∈ r, isListedSpace b = true) :
    TrimLeftFunc (x ++ r) IsSpace =
      if TrimLeftFunc x IsSpace = [] then [] else TrimLeftFunc x IsSpace ++ r := by
  unfold TrimLeftFunc indexFunc
  rw [indexFuncFrom_append r hr x 0 0 (Nat.zero_le _)]
  rcases indexFuncFrom_spec x 0 0 (fun b hb => absurd hb (by simp)) with
    ⟨h1, _⟩ | ⟨j, hj, h1, _⟩
  · simp [h1]
  · rw [h1]
    have h' : ¬ (((0 + j : Nat) : Int) = -1) := by omega
    have hdrop : x.drop j ≠ [] := by
      intro h
      have := List.length_drop j x
      rw [h] at this
      simp at this
      omega
    rw [if_neg h', if_neg h', Int.toNat_ofNat, Nat.zero_add, if_neg hdrop]
    exact @List.drop_append_of_le_length _ x r j (by omega)

theorem lastIndexFuncFrom_append_le (y r : GoString) (f : Nat → Bool) (truth : Bool) :
    ∀ (i p : Nat), i ≤ y.length →
      lastIndexFuncFrom (y ++ r) f truth i p = lastIndexFuncFrom y f truth i p := by
  intro i
  induction i with
  | zero => intro p _; rw [lastIndexFuncFrom, lastIndexFuncFrom]
  | succ i ih =>
    intro p hi
    cases p with
    | succ q =>
      rw [lastIndexFuncFrom, lastIndexFuncFrom]
      exact ih q (by omega)
    | zero =>
      rw [lastIndexFuncFrom, lastIndexFuncFrom, @List.take_append_of_le_length _ y r (i + 1) hi,
        ih _ (by omega)]

theorem lastIndexFunc_append_spaces (y r : GoString) (hr : ∀ b ∈ r, isListedSpace b = true) :
    lastIndexFuncFrom (y ++ r) IsSpace false (y ++ r).length 0 =
      lastIndexFuncFrom y IsSpace false y.length 0 := by
  induction r using List.reverseRecOn with
  | nil => rw [List.append_nil]
  | append_singleton r' b ih =>
    obtain ⟨h1, _, h3⟩ := listedSpace_facts b (hr b (by simp))
    have hlen : (y ++ (r' ++ [b])).length = (y ++ r').length + 1 := by
      simp only [List.length_append, List.length_singleton]; omega
    have htake : (y ++ (r' ++ [b])).take ((y ++ r').length + 1) = (y ++ r') ++ [b] := by
      rw [← hlen, List.take_length, List.append_assoc]
    rw [hlen, lastIndexFuncFrom, htake, decodeLast_ascii (y ++ r') b h1]
    have hne : ¬ ((IsSpace (b.val, 1).1 == false) = true) := by
      show ¬ ((IsSpace b.val == false) = true)
      rw [h3]; decide
    rw [if_neg hne, ← List.append_assoc,
      lastIndexFuncFrom_append_le (y ++ r') [b] IsSpace false _ _ (Nat.le_refl _)]
    exact ih (fun c hc => hr c (by simp [hc]))

theorem drop_split (s : GoString) (n a : Nat) (h : a ≤ n) (hn : n ≤ s.length) :
    s.drop a = (s.take n).drop a ++ s.drop n := by
  have h1 : a ≤ (s.take n).length := by rw [List.length_take]; omega
  have h2 := @List.drop_append_of_le_length _ (s.take n) (s.drop n) a h1
  rw [List.take_append_drop] at h2
  exact h2

theorem lastIndexFuncFrom_spec (s : GoString) :
    ∀ (i p : Nat), i ≤ s.length → (∀ b ∈ s.drop (i - p), strippable b = true) →
      (lastIndexFuncFrom s IsSpace false i p = -1 ∧ ∀ b ∈ s, strippable b = true) ∨
      (∃ j : Nat, lastIndexFuncFrom s IsSpace false i p = (j : Int) ∧ j < i ∧
        ∀ b ∈ s.drop (j + 1), strippable b = true) := by
  intro i
  induction i with
  | zero =>
    intro p _ h
    left
    refine ⟨by rw [lastIndexFuncFrom], ?_⟩
    simpa using h
  | succ i ih =>
    intro p hi h
    cases p with
    | succ q =>
      rw [lastIndexFuncFrom]
      rw [Nat.add_sub_add_right] at h
      rcases ih q (by omega) h with h1 | ⟨j, h1, h2, h3⟩
      · exact Or.inl h1
      · exact Or.inr ⟨j, h1, by omega, h3⟩
    | zero =>
      rw [lastIndexFuncFrom]
      have hlen : (s.take (i + 1)).length = i + 1 := by rw [List.length_take]; omega
      have hne : s.take (i + 1) ≠ [] := by
        intro h0
        rw [h0] at hlen
        simp at hlen
      obtain ⟨w1, w2, w3, w4⟩ := decodeLast_width (s.take (i + 1)) hne
      rw [hlen] at w2 w3 w4
      rw [Nat.sub_zero] at h
      generalize DecodeLastRuneInString (s.take (i + 1)) = d at w1 w2 w3 w4 ⊢
      by_cases hsp : IsSpace d.1 = true
      · have hneg : ¬ ((IsSpace d.1 == false) = true) := by rw [hsp]; decide
        rw [if_neg hneg]
        have hyp : ∀ b ∈ s.drop (i - (d.2 - 1)), strippable b = true := by
          have e : i - (d.2 - 1) = i + 1 - d.2 := by omega
          rw [e, drop_split s (i + 1) (i + 1 - d.2) (by omega) hi]
          intro b hb
          rcases List.mem_append.mp hb with hb | hb
          · exact w4 hsp b hb
          · exact h b hb
        rcases ih (d.2 - 1) (by omega) hyp with h1 | ⟨j, h1, h2, h3⟩
        · exact Or.inl h1
        · exact Or.inr ⟨j, h1, by omega, h3⟩
      · have hpos : (IsSpace d.1 == false) = true := by simpa using hsp
        rw [if_pos hpos]
        right
        refine ⟨i + 1 - d.2, by omega, by omega, ?_⟩
        rw [drop_split s (i + 1) (i + 1 - d.2 + 1) (by omega) hi]
        intro b hb
        rcases List.mem_append.mp hb with hb | hb
        · exact w3 b hb
        · exact h b hb

theorem trimRight_spec (s : GoString) :
    ∃ j, TrimRightFunc s IsSpace = s.take j ∧ ∀ b ∈ s.drop j, strippable b = true := by
  unfold TrimRightFunc lastIndexFunc
  rcases lastIndexFuncFrom_spec s s.length 0 (Nat.le_refl _) (by simp) with
    ⟨h1, h2⟩ | ⟨j, h1, h2, h3⟩
  · refine ⟨0, ?_, by simpa using h2⟩
    rw [h1]
    simp
  · rw [h1]
    dsimp only
    have hne : s.drop j ≠ [] := by
      intro h
      have := List.length_drop j s
      rw [h] at this
      simp at this
      omega
    obtain ⟨w1, _, _, _⟩ := decode_width (s.drop j) hne
    have hmem : ∀ m, j + 1 ≤ m → ∀ b ∈ s.drop m, strippable b = true := by
      intro m hm b hb
      have e : s.drop m = (s.drop (j + 1)).drop (m - (j + 1)) := by
        rw [List.drop_drop]; congr 1; omega
      rw [e] at hb
      exact h3 b (List.mem_of_mem_drop hb)
    split_ifs with hc
    · refine ⟨j + (DecodeRuneInString (s.drop j)).2, ?_, hmem _ (by omega)⟩
      congr 1
    · exact ⟨j + 1, by congr 1, hmem _ (Nat.le_refl _)⟩

theorem trimRight_append (y r : GoString) (hr : ∀ b ∈ r, isListedSpace b = true) :
    TrimRightFunc (y ++ r) IsSpace = TrimRightFunc y IsSpace := by
  unfold TrimRightFunc lastIndexFunc
  rw [lastIndexFunc_append_spaces y r hr]
  rcases lastIndexFuncFrom_spec y y.length 0 (Nat.le_refl _) (by simp) with
    ⟨h1, _⟩ | ⟨j, h1, h2, _⟩
  · rw [h1]
    simp
  · rw [h1]
    dsimp only
    have hne : y.drop j ≠ [] := by
      intro h
      have := List.length_drop j y
      rw [h] at this
      simp at this
      omega
    obtain ⟨_, w2, _, _⟩ := decode_width (y.drop j) hne
    rw [List.length_drop] at w2
    have hg : (y ++ r).getD (j : Int).toNat 0 = y.getD (j : Int).toNat 0 :=
      List.getD_append y r 0 _ (by simpa using h2)
    have hd : DecodeRuneInString ((y ++ r).drop (j : Int).toNat) =
        DecodeRuneInString (y.drop (j : Int).toNat) := by
      rw [Int.toNat_ofNat, @List.drop_append_of_le_length _ y r j (by omega)]
      exact decode_append (y.drop j) r hne (listed_ascii r hr)
    rw [hg, hd]
    split_ifs with hc
    · exact @List.take_append_of_le_length _ y r _ (by
        rw [Int.toNat_ofNat]; omega)
    · exact @List.take_append_of_le_length _ y r _ (by omega)

theorem trimFunc_append (x r : GoString) (hr : ∀ b ∈ r, isListedSpace b = true) :
    TrimFunc (x ++ r) IsSpace = TrimFunc x IsSpace := by
  unfold TrimFunc
  rw [trimLeft_append x r hr]
  split_ifs with h
  · rw [h]
  · exact trimRight_append _ r hr

/-! ## `TrimSpace` -/

theorem trimSpaceStop_append_le (u v : GoString) :
    ∀ n, n ≤ u.length → trimSpaceStop (u ++ v) n = trimSpaceStop u n := by
  intro n
  induction n with
  | zero => intro _; rw [trimSpaceStop, trimSpaceStop, List.take_zero, List.take_zero]
  | succ n ih =>
    intro hn
    rw [trimSpaceStop, trimSpaceStop, List.getD_append u v 0 n (by omega),
      @List.take_append_of_le_length _ u v (n + 1) hn, ih (by omega)]

theorem trimSpaceStop_append_spaces (t r : GoString) (hr : ∀ b ∈ r, isListedSpace b = true) :
    trimSpaceStop (t ++ r) (t ++ r).length = trimSpaceStop t t.length := by
  induction r using List.reverseRecOn with
  | nil => rw [List.append_nil]
  | append_singleton r' b ih =>
    obtain ⟨h1, h2, _⟩ := listedSpace_facts b (hr b (by simp))
    have hlen : (t ++ (r' ++ [b])).length = (t ++ r').length + 1 := by
      simp only [List.length_append, List.length_singleton]; omega
    have hget : (t ++ (r' ++ [b])).getD (t ++ r').length 0 = b := by
      rw [← List.append_assoc, List.getD_append_right (t ++ r') [b] 0 _ (Nat.le_refl _)]
      simp
    rw [hlen, trimSpaceStop, hget]
    have c1 : ¬ b.val ≥ RuneSelf := by unfold RuneSelf; omega
    have c2 : ¬ ((asciiSpace b == false) = true) := by rw [h2]; decide
    rw [if_neg c1, if_neg c2, ← List.append_assoc,
      trimSpaceStop_append_le (t ++ r') [b] _ (Nat.le_refl _)]
    exact ih (fun c hc => hr c (by simp [hc]))

theorem trimSpaceStop_spec (t : GoString) :
    ∀ n, n ≤ t.length → (∀ b ∈ t.drop n, strippable b = true) →
      ∃ j, trimSpaceStop t n = t.take j ∧ ∀ b ∈ t.drop j, strippable b = true := by
  intro n
  induction n with
  | zero =>
    intro _ h
    exact ⟨0, by rw [trimSpaceStop], h⟩
  | succ n ih =>
    intro hn h
    rw [trimSpaceStop]
    split_ifs with c1 c2
    · obtain ⟨j, e, hj⟩ := trimRight_spec (t.take (n + 1))
      refine ⟨min j (n + 1), ?_, ?_⟩
      · rw [e, List.take_take]
      · rw [drop_split t (n + 1) (min j (n + 1)) (Nat.min_le_right _ _) hn]
        intro b hb
        rcases List.mem_append.mp hb with hb | hb
        · by_cases hle : j ≤ n + 1
          · rw [Nat.min_eq_left hle] at hb
            exact hj b hb
          · rw [Nat.min_eq_right (by omega),
              List.drop_eq_nil_of_le (by rw [List.length_take]; omega)] at hb
            exact absurd hb (List.not_mem_nil b)
        · exact h b hb
    · exact ⟨n + 1, rfl, h⟩
    · have hc : asciiSpace (t.getD n 0) = true := by simpa using c2
      apply ih (by omega)
      rw [List.drop_eq_getElem_cons (by omega)]
      intro b hb
      rcases List.mem_cons.mp hb with rfl | hb
      · have hg : t.getD n 0 = t[n] := by
          rw [List.getD_eq_getElem?_getD, List.getElem?_eq_getElem (by omega)]; rfl
        rw [← hg]
        exact strippable_of_asciiSpace _ hc
      · exact h b hb

theorem trimSpaceStart_prepend (l c : GoString) (hl : ∀ b ∈ l, isListedSpace b = true) :
    trimSpaceStart (l ++ c) = trimSpaceStart c := by
  induction l with
  | nil => rfl
  | cons b rest ih =>
    obtain ⟨h1, h2, _⟩ := listedSpace_facts b (hl b (List.mem_cons_self b _))
    have c1 : ¬ b.val ≥ RuneSelf := by unfold RuneSelf; omega
    have c2 : ¬ ((asciiSpace b == false) = true) := by rw [h2]; decide
    rw [List.cons_append, trimSpaceStart, if_neg c1, if_neg c2]
    exact ih (fun x hx => hl x (List.mem_cons_of_mem b hx))

theorem trimSpaceStart_append (c r : GoString) (hr : ∀ b ∈ r, isListedSpace b = true) :
    trimSpaceStart (c ++ r) = trimSpaceStart c := by
  induction c with
  | nil =>
    have := trimSpaceStart_prepend r [] hr
    rw [List.append_nil] at this
    rw [List.nil_append, this]
  | cons a rest ih =>
    rw [List.cons_append, trimSpaceStart, trimSpaceStart]
    split_ifs with c1 c2
    · rw [← List.cons_append]
      exact trimFunc_append (a :: rest) r hr
    · have := trimSpaceStop_append_spaces (a :: rest) r hr
      rw [List.cons_append] at this
      exact this
    · exact ih

theorem trimSpace_listed (l c r : GoString) (hl : ∀ b ∈ l, isListedSpace b = true)
    (hr : ∀ b ∈ r, isListedSpace b = true) : TrimSpace (l ++ c ++ r) = TrimSpace c := by
  unfold TrimSpace
  rw [List.append_assoc, trimSpaceStart_prepend l (c ++ r) hl, trimSpaceStart_append c r hr]

theorem trimSpace_spec (c : GoString) :
    ∃ p q, c = p ++ TrimSpace c ++ q ∧ (∀ b ∈ p, strippable b = true) ∧
      (∀ b ∈ q, strippable b = true) := by
  unfold TrimSpace
  induction c with
  | nil => exact ⟨[], [], rfl, by simp, by simp⟩
  | cons a rest ih =>
    rw [trimSpaceStart]
    split_ifs with c1 c2
    · obtain ⟨j, _, e1, h1⟩ := trimLeft_spec (a :: rest)
      obtain ⟨k, e2, h2⟩ := trimRight_spec (TrimLeftFunc (a :: rest) IsSpace)
      refine ⟨(a :: rest).take j, (TrimLeftFunc (a :: rest) IsSpace).drop k, ?_, h1, h2⟩
      unfold TrimFunc
      rw [e2, List.append_assoc, List.take_append_drop, e1, List.take_append_drop]
    · obtain ⟨j, e, h⟩ := trimSpaceStop_spec (a :: rest) (a :: rest).length (Nat.le_refl _)
        (by simp)
      refine ⟨[], (a :: rest).drop j, ?_, by simp, h⟩
      rw [e, List.nil_append, List.take_append_drop]
    · obtain ⟨p, q, e, hp, hq⟩ := ih
      have hc : asciiSpace a = true := by simpa using c2
      refine ⟨a :: p, q, ?_, ?_, hq⟩
      · rw [List.cons_append, List.cons_append, ← e]
      · intro b hb
        rcases List.mem_cons.mp hb with rfl | hb
        · exact strippable_of_asciiSpace _ hc
        · exact hp b hb

/-! ## `HasPrefix`, `Contains` and the marker loops -/

theorem hasPrefix_iff (s pre : GoString) : HasPrefix s pre = true ↔ pre <+: s := by
  unfold HasPrefix
  rw [Bool.and_eq_true, decide_eq_true_iff, beq_iff_eq, List.prefix_iff_eq_take]
  constructor
  · intro h; exact h.2.symm
  · intro h
    refine ⟨?_, h.symm⟩
    have := congrArg List.length h
    rw [List.length_take] at this
    omega

theorem indexFrom_nonneg_iff (substr : GoString) :
    ∀ (s : GoString) (i : Nat), 0 ≤ indexFrom substr s i ↔ substr <:+: s := by
  intro s
  induction s with
  | nil =>
    intro i
    rw [indexFrom]
    by_cases h : HasPrefix [] substr = true
    · rw [if_pos h]
      have := (hasPrefix_iff [] substr).mp h
      exact ⟨fun _ => this.isInfix, fun _ => by omega⟩
    · rw [if_neg h]
      constructor
      · intro h0; omega
      · intro hin
        exfalso
        apply h
        rw [hasPrefix_iff]
        have := List.eq_nil_of_infix_nil hin
        rw [this]
  | cons c rest ih =>
    intro i
    rw [indexFrom, List.infix_cons_iff]
    by_cases h : HasPrefix (c :: rest) substr = true
    · rw [if_pos h]
      exact ⟨fun _ => Or.inl ((hasPrefix_iff _ _).mp h), fun _ => by omega⟩
    · rw [if_neg h, ih (i + 1)]
      constructor
      · intro h1; exact Or.inr h1
      · intro h1
        rcases h1 with h1 | h1
        · exact absurd ((hasPrefix_iff _ _).mpr h1) h
        · exact h1

theorem contains_iff (s substr : GoString) : Contains s substr = true ↔ substr <:+: s := by
  unfold Contains Index
  rw [decide_eq_true_iff, ge_iff_le]
  exact indexFrom_nonneg_iff substr s 0

theorem markerFound_iff (cmd : GoString) (markers : List GoString) :
    markerFound cmd markers = true ↔ ∃ m ∈ markers, m <:+: cmd := by
  induction markers with
  | nil => simp [markerFound]
  | cons m rest ih =>
    rw [markerFound]
    by_cases h : Contains cmd m = true
    · rw [if_pos h]
      exact ⟨fun _ => ⟨m, List.mem_cons_self m rest, (contains_iff _ _).mp h⟩, fun _ => rfl⟩
    · rw [if_neg h, ih]
      constructor
      · rintro ⟨x, hx, hin⟩
        exact ⟨x, List.mem_cons_of_mem m hx, hin⟩
      · rintro ⟨x, hx, hin⟩
        rcases List.mem_cons.mp hx with rfl | hx
        · exact absurd ((contains_iff _ _).mpr hin) h
        · exact ⟨x, hx, hin⟩

/-! ## What trimming keeps -/

theorem infix_strip_left (m : GoString) (h : Byte) (tl : GoString) (hm : m = h :: tl)
    (hh : strippable h = false) :
    ∀ (p l : GoString), (∀ b ∈ p, strippable b = true) → m <:+: p ++ l → m <:+: l := by
  intro p
  induction p with
  | nil => intro l _ hin; exact hin
  | cons a rest ih =>
    intro l hp hin
    rw [List.cons_append, List.infix_cons_iff] at hin
    rcases hin with hpre | hin
    · exfalso
      rw [hm] at hpre
      obtain ⟨t, ht⟩ := hpre
      rw [List.cons_append] at ht
      have hha : h = a := (List.cons.inj ht).1
      have := hp a (List.mem_cons_self a rest)
      rw [← hha, hh] at this
      exact absurd this (by decide)
    · exact ih l (fun b hb => hp b (List.mem_cons_of_mem a hb)) hin

theorem infix_strip (m : GoString) (h l : Byte) (tl it : GoString) (hm : m = h :: tl)
    (hm' : m = it ++ [l]) (hh : strippable h = false) (hl : strippable l = false)
    (p t q : GoString) (hp : ∀ b ∈ p, strippable b = true) (hq : ∀ b ∈ q, strippable b = true)
    (hin : m <:+: p ++ t ++ q) : m <:+: t := by
  rw [List.append_assoc] at hin
  have h1 : m <:+: t ++ q := infix_strip_left m h tl hm hh p (t ++ q) hp hin
  have h2 : m.reverse <:+: q.reverse ++ t.reverse := by
    rw [← List.reverse_append]
    exact List.reverse_infix.mpr h1
  have hrev : m.reverse = l :: it.reverse := by rw [hm', List.reverse_append]; rfl
  have h3 := infix_strip_left m.reverse l it.reverse hrev hl q.reverse t.reverse
    (fun b hb => hq b (List.mem_reverse.mp hb)) h2
  exact List.reverse_infix.mp h3

theorem builtin_marker_shape : ∀ m ∈ EscapeMarkers,
    ∃ (h l : Byte) (tl it : GoString), m = h :: tl ∧ m = it ++ [l] ∧ strippable h = false ∧
      strippable l = false := by
  intro m hm
  unfold EscapeMarkers at hm
  simp only [List.mem_cons, List.mem_singleton, List.not_mem_nil, or_false] at hm
  rcases hm with rfl | rfl | rfl
  · exact ⟨35, 107, ascii " bypass-hook", ascii "# bypass-hoo", by decide, by decide, by decide,
      by decide⟩
  · exact ⟨35, 112, ascii " no-wrap", ascii "# no-wra", by decide, by decide, by decide,
      by decide⟩
  · exact ⟨35, 107, ascii " skip-hook", ascii "# skip-hoo", by decide, by decide, by decide,
      by decide⟩

theorem builtin_marker_kept (c : GoString) (m : GoString) (hm : m ∈ EscapeMarkers)
    (hin : m <:+: c) : m <:+: TrimSpace c := by
  obtain ⟨h, l, tl, it, e1, e2, hh, hl⟩ := builtin_marker_shape m hm
  obtain ⟨p, q, e, hp, hq⟩ := trimSpace_spec c
  rw [e] at hin
  exact infix_strip m h l tl it e1 e2 hh hl p (TrimSpace c) q hp hq hin

theorem trimSpace_within (c : GoString) : TrimSpace c <:+: c := by
  obtain ⟨p, q, e, _, _⟩ := trimSpace_spec c
  exact ⟨p, q, e.symm⟩

theorem trimSpace_of_listed (c : GoString) (hc : ∀ b ∈ c, isListedSpace b = true) :
    TrimSpace c = [] := by
  have := trimSpace_listed c [] [] hc (by simp)
  rw [List.append_nil, List.append_nil] at this
  rw [this]
  rfl

/-! ## `ShouldWrapCommand` -/

theorem shouldWrap_some (c : GoString) (cf : Config) :
    ShouldWrapCommand c (some cf) =
      some (!(TrimSpace c == [] || HasPrefix (TrimSpace c) (ascii "bash -c ")) &&
        cf.Enabled && !markerFound (TrimSpace c) EscapeMarkers &&
        !markerFound (TrimSpace c) cf.AdditionalEscapeMarkers) := by
  unfold ShouldWrapCommand
  dsimp only
  generalize (TrimSpace c == [] || HasPrefix (TrimSpace c) (ascii "bash -c ")) = b1
  cases b1 <;> cases h2 : cf.Enabled <;>
    cases h3 : markerFound (TrimSpace c) EscapeMarkers <;>
    cases h4 : markerFound (TrimSpace c) cf.AdditionalEscapeMarkers <;>
    simp [h2, h3, h4]

theorem shouldWrap_none (c : GoString) :
    ShouldWrapCommand c none =
      some (!(TrimSpace c == [] || HasPrefix (TrimSpace c) (ascii "bash -c ")) &&
        !markerFound (TrimSpace c) EscapeMarkers) := by
  unfold ShouldWrapCommand
  dsimp only
  generalize (TrimSpace c == [] || HasPrefix (TrimSpace c) (ascii "bash -c ")) = b1
  cases b1 <;> cases h3 : markerFound (TrimSpace c) EscapeMarkers <;> simp [h3]

/-! ## Properties of the encoder and the wrapper -/

theorem rfc4648Encode_wellFormed (s : GoString) : wellFormedBase64 (rfc4648Encode s) = true := by
  induction s using rfc4648Encode.induct with
  | case1 => rfl
  | case2 a =>
    have h0 : a.val * 16 / 64 < 64 := by omega
    have h1 : a.val * 16 % 64 < 64 := by omega
    simp [rfc4648Encode, wellFormedBase64, isAlphabetByte_b64Char _ h0,
      isAlphabetByte_b64Char _ h1]
  | case3 a b =>
    have h0 : (a.val * 256 + b.val) * 4 / 4096 < 64 := by omega
    have h1 : (a.val * 256 + b.val) * 4 / 64 % 64 < 64 := by omega
    have h2 : (a.val * 256 + b.val) * 4 % 64 < 64 := by omega
    simp [rfc4648Encode, wellFormedBase64, isAlphabetByte_b64Char _ h0,
      isAlphabetByte_b64Char _ h1, isAlphabetByte_b64Char _ h2]
  | case4 a b c rest ih =>
    have h0 : (a.val * 2 ^ 16 + b.val * 2 ^ 8 + c.val) / 2 ^ 18 < 64 := by omega
    have h1 : (a.val * 2 ^ 16 + b.val * 2 ^ 8 + c.val) / 2 ^ 12 % 2 ^ 6 < 64 := by omega
    have h2 : (a.val * 2 ^ 16 + b.val * 2 ^ 8 + c.val) / 2 ^ 6 % 2 ^ 6 < 64 := by omega
    have h3 : (a.val * 2 ^ 16 + b.val * 2 ^ 8 + c.val) % 2 ^ 6 < 64 := by omega
    rw [rfc4648Encode, wellFormedBase64, isAlphabetByte_b64Char _ h0,
      isAlphabetByte_b64Char _ h1, isAlphabetByte_b64Char _ h2, isAlphabetByte_b64Char _ h3, ih]
    simp

theorem rfc4648Encode_bytes (s : GoString) : ∀ ch ∈ rfc4648Encode s, isBase64Byte ch = true := by
  have hal : ∀ v, v < 64 → isBase64Byte (b64Char v) = true := by
    intro v hv
    unfold isBase64Byte
    rw [isAlphabetByte_b64Char v hv]
    rfl
  have hpad : isBase64Byte padByte = true := by decide
  induction s using rfc4648Encode.induct with
  | case1 => intro ch hch; exact absurd hch (List.not_mem_nil ch)
  | case2 a =>
    intro ch hch
    simp only [rfc4648Encode, List.mem_cons, List.mem_singleton, List.not_mem_nil,
      or_false] at hch
    rcases hch with rfl | rfl | rfl | rfl
    · exact hal _ (by omega)
    · exact hal _ (by omega)
    · exact hpad
    · exact hpad
  | case3 a b =>
    intro ch hch
    simp only [rfc4648Encode, List.mem_cons, List.mem_singleton, List.not_mem_nil,
      or_false] at hch
    rcases hch with rfl | rfl | rfl | rfl
    · exact hal _ (by omega)
    · exact hal _ (by omega)
    · exact hal _ (by omega)
    · exact hpad
  | case4 a b c rest ih =>
    intro ch hch
    simp only [rfc4648Encode, List.mem_cons] at hch
    rcases hch with rfl | rfl | rfl | rfl | hch
    · exact hal _ (by omega)
    · exact hal _ (by omega)
    · exact hal _ (by omega)
    · exact hal _ (by omega)
    · exact ih ch hch

theorem isBase64Byte_shell_safe : ∀ ch : Byte, isBase64Byte ch = true →
    ch ≠ 39 ∧ ch ≠ 92 ∧ ch ≠ 36 ∧ ch ≠ 96 ∧ ch ≠ 32 ∧ ch ≠ 10 := by
  decide

theorem wrapCommand_eq (c : GoString) :
    WrapCommand c = some (wrapPrefix ++ rfc4648Encode c ++ wrapSuffix) := by
  unfold WrapCommand
  rw [base64Encode_eq]
  rfl

/-- C1. Round trip: for every byte sequence `c`, `WrapCommand c` returns the fixed prefix, a
payload and the fixed suffix; the payload is a well-formed padded standard-base64 text, and a
standard (RFC 4648) decoder turns it back into exactly the bytes of `c`. -/
theorem wrapCommand_payload_roundtrip (c : GoString) :
    ∃ payload, WrapCommand c = some (wrapPrefix ++ payload ++ wrapSuffix) ∧
      wellFormedBase64 payload = true ∧ rfc4648Decode payload = some c :=
  ⟨rfc4648Encode c, wrapCommand_eq c, rfc4648Encode_wellFormed c, rfc4648_roundtrip c⟩

/-- C2. For every byte sequence `s`, `base64Encode s` returns the RFC 4648 standard base64
encoding of `s`, with `=` padding and no line breaks (three bytes give four characters, a final
byte two characters and `==`, two final bytes three characters and `=`); in particular
`hello` gives `aGVsbG8=`, the empty string gives the empty string, `test string` gives
`dGVzdCBzdHJpbmc=` and `with\nnewlines\n` gives `d2l0aApuZXdsaW5lcwo=`. -/
theorem base64Encode_is_rfc4648 :
    (∀ s : GoString, base64Encode s = some (rfc4648Encode s)) ∧
      base64Encode (ascii "hello") = some (ascii "aGVsbG8=") ∧
      base64Encode (ascii "") = some (ascii "") ∧
      base64Encode (ascii "test string") = some (ascii "dGVzdCBzdHJpbmc=") ∧
      base64Encode (ascii "with\nnewlines\n") = some (ascii "d2l0aApuZXdsaW5lcwo=") :=
  ⟨base64Encode_eq, by decide, by decide, by decide, by decide⟩

/-- C3. For every command `c`, `WrapCommand c` is exactly the prefix `bash -c "$(echo '`, then
`base64Encode c`, then the suffix `' | base64 -d)"`; so it always starts with the prefix and
ends with the suffix; the empty command gives `bash -c "$(echo '' | base64 -d)"` and
`echo "hello"` gives `bash -c "$(echo 'ZWNobyAiaGVsbG8i' | base64 -d)"`. -/
theorem wrapCommand_format :
    (∀ c : GoString, ∃ encoded w, base64Encode c = some encoded ∧ WrapCommand c = some w ∧
      w = ascii "bash -c \"$(echo '" ++ encoded ++ ascii "' | base64 -d)\"" ∧
      ascii "bash -c \"$(echo '" <+: w ∧ ascii "' | base64 -d)\"" <:+ w) ∧
      WrapCommand (ascii "") = some (ascii "bash -c \"$(echo '' | base64 -d)\"") ∧
      WrapCommand (ascii "echo \"hello\"") =
        some (ascii "bash -c \"$(echo 'ZWNobyAiaGVsbG8i' | base64 -d)\"") := by
  refine ⟨?_, by decide, by decide⟩
  intro c
  refine ⟨rfc4648Encode c, _, base64Encode_eq c, wrapCommand_eq c, rfl, ?_, ?_⟩
  · exact ⟨rfc4648Encode c ++ wrapSuffix, by rw [List.append_assoc]; rfl⟩
  · exact ⟨wrapPrefix ++ rfc4648Encode c, rfl⟩

/-- C4. For every byte sequence `s`, every character of `base64Encode s` is one of `A-Z`,
`a-z`, `0-9`, `+`, `/` or `=`; so the payload `WrapCommand` puts between the single quotes
holds no single quote, backslash, `$`, backtick, space or newline. -/
theorem base64Encode_shell_safe (s : GoString) :
    ∃ out, base64Encode s = some out ∧
      WrapCommand s = some (wrapPrefix ++ out ++ wrapSuffix) ∧
      (∀ ch ∈ out, isBase64Byte ch = true) ∧
      (∀ ch ∈ out, ch ≠ 39 ∧ ch ≠ 92 ∧ ch ≠ 36 ∧ ch ≠ 96 ∧ ch ≠ 32 ∧ ch ≠ 10) :=
  ⟨rfc4648Encode s, base64Encode_eq s, wrapCommand_eq s, rfc4648Encode_bytes s,
    fun ch hch => isBase64Byte_shell_safe ch (rfc4648Encode_bytes s ch hch)⟩

/-! ## Properties of the policy -/

theorem shouldWrap_of_prefix (c : GoString) (cfg : Option Config)
    (h : ascii "bash -c " <+: TrimSpace c) : ShouldWrapCommand c cfg = some false := by
  have hp := (hasPrefix_iff _ _).mpr h
  cases cfg with
  | none => rw [shouldWrap_none, hp]; simp
  | some cf => rw [shouldWrap_some, hp]; simp

theorem shouldWrap_of_builtin (c : GoString) (cfg : Option Config)
    (h : markerFound (TrimSpace c) EscapeMarkers = true) :
    ShouldWrapCommand c cfg = some false := by
  cases cfg with
  | none => rw [shouldWrap_none, h]; simp
  | some cf => rw [shouldWrap_some, h]; simp

theorem trimSpace_id (s : GoString) (h l : Byte) (tl it : GoString) (e1 : s = h :: tl)
    (e2 : s = it ++ [l]) (hh : strippable h = false) (hl : strippable l = false) :
    TrimSpace s = s := by
  unfold strippable at hh hl
  rw [Bool.or_eq_false_iff, decide_eq_false_iff_not] at hh hl
  have a1 : ¬ h.val ≥ RuneSelf := hh.2
  have a2 : (asciiSpace h == false) = true := by rw [hh.1]; rfl
  have b1 : ¬ l.val ≥ RuneSelf := hl.2
  have b2 : (asciiSpace l == false) = true := by rw [hl.1]; rfl
  unfold TrimSpace
  conv => lhs; rw [e1]
  rw [trimSpaceStart, if_neg a1, if_pos a2, ← e1]
  have hlen : s.length = it.length + 1 := by rw [e2]; simp
  have hget : s.getD it.length 0 = l := by
    rw [e2, List.getD_append_right it [l] 0 _ (Nat.le_refl _)]
    simp
  rw [hlen, trimSpaceStop, hget, if_neg b1, if_pos b2, ← hlen, List.take_length]

theorem trimSpace_wrapped (c w : GoString) (h : WrapCommand c = some w) : TrimSpace w = w := by
  rw [wrapCommand_eq] at h
  have e := (Option.some.inj h).symm
  refine trimSpace_id w 98 34 (ascii "ash -c \"$(echo '" ++ rfc4648Encode c ++ wrapSuffix)
    (wrapPrefix ++ rfc4648Encode c ++ ascii "' | base64 -d)") ?_ ?_ (by decide) (by decide)
  · rw [e]; rfl
  · rw [e, List.append_assoc (wrapPrefix ++ rfc4648Encode c)]; rfl

/-- C5, amended. For every command `c` and every config (nil, enabled or disabled): if `c`
contains one of the built-in escape markers `# bypass-hook`, `# no-wrap`, `# skip-hook`, or if
`c` with its leading and trailing white space removed (`strings.TrimSpace`) contains an entry
of `AdditionalEscapeMarkers`, then `ShouldWrapCommand` returns false. -/
theorem escapeMarker_not_wrapped (c : GoString) (cfg : Option Config)
    (h : (∃ m ∈ EscapeMarkers, m <:+: c) ∨
      (∃ cf, cfg = some cf ∧ ∃ m ∈ cf.AdditionalEscapeMarkers, m <:+: TrimSpace c)) :
    ShouldWrapCommand c cfg = some false := by
  rcases h with ⟨m, hm, hin⟩ | ⟨cf, rfl, m, hm, hin⟩
  · exact shouldWrap_of_builtin c cfg
      ((markerFound_iff _ _).mpr ⟨m, hm, builtin_marker_kept c m hm hin⟩)
  · have := (markerFound_iff (TrimSpace c) cf.AdditionalEscapeMarkers).mpr ⟨m, hm, hin⟩
    rw [shouldWrap_some, this]
    simp

theorem escapeMarker_not_wrapped_witness :
    ((∃ m ∈ EscapeMarkers, m <:+: ascii "ls | grep foo # bypass-hook") ∧
      ShouldWrapCommand (ascii "ls | grep foo # bypass-hook")
        (some { enabledConfig with Enabled := false }) = some false) ∧
    ((∃ m ∈ [ascii "# custom-skip"], m <:+: TrimSpace (ascii "ls | grep foo # custom-skip")) ∧
      ShouldWrapCommand (ascii "ls | grep foo # custom-skip")
        (some { enabledConfig with AdditionalEscapeMarkers := [ascii "# custom-skip"] }) =
          some false) :=
  ⟨⟨⟨ascii "# bypass-hook", by decide, by decide⟩,
      escapeMarker_not_wrapped _ _ (Or.inl ⟨ascii "# bypass-hook", by decide, by decide⟩)⟩,
    ⟨⟨ascii "# custom-skip", by decide, by decide⟩,
      escapeMarker_not_wrapped _ _
        (Or.inr ⟨_, rfl, ascii "# custom-skip", by decide, by decide⟩)⟩⟩

/-- C5 as stated fails: the command `ls #keep ` (with a space at its end) contains the
configured marker `#keep ` (with a space at its end), and `ShouldWrapCommand` returns true,
because the markers are looked for in the trimmed command `ls #keep`. -/
theorem escapeMarker_untrimmed_counterexample :
    ascii "#keep " ∈ [ascii "#keep "] ∧ ascii "#keep " <:+: ascii "ls #keep " ∧
      ShouldWrapCommand (ascii "ls #keep ")
        (some { enabledConfig with AdditionalEscapeMarkers := [ascii "#keep "] }) =
          some true := by
  decide

/-- C6, amended. For every command `c` and config with `Enabled = true`: if `c` with its
leading and trailing white space removed as `strings.TrimSpace` does (white space as defined
by Unicode: space, tab, newline, carriage return, and also vertical tab, form feed, U+0085,
U+00A0 and the other White_Space code points) is non-empty and does not begin with `bash -c `,
and `c` contains none of the built-in escape markers and no entry of
`AdditionalEscapeMarkers`, then `ShouldWrapCommand` returns true. -/
theorem wraps_everything_else (c : GoString) (cf : Config) (hen : cf.Enabled = true)
    (hne : TrimSpace c ≠ []) (hpre : ¬ ascii "bash -c " <+: TrimSpace c)
    (hm : ∀ m ∈ EscapeMarkers ++ cf.AdditionalEscapeMarkers, ¬ m <:+: c) :
    ShouldWrapCommand c (some cf) = some true := by
  have h1 : (TrimSpace c == []) = false := by
    rw [beq_eq_false_iff_ne]; exact hne
  have h2 : HasPrefix (TrimSpace c) (ascii "bash -c ") = false := by
    rw [← Bool.not_eq_true, hasPrefix_iff]; exact hpre
  have h3 : markerFound (TrimSpace c) EscapeMarkers = false := by
    rw [← Bool.not_eq_true, markerFound_iff]
    rintro ⟨m, hmem, hin⟩
    exact hm m (List.mem_append_left _ hmem) (hin.trans (trimSpace_within c))
  have h4 : markerFound (TrimSpace c) cf.AdditionalEscapeMarkers = false := by
    rw [← Bool.not_eq_true, markerFound_iff]
    rintro ⟨m, hmem, hin⟩
    exact hm m (List.mem_append_right _ hmem) (hin.trans (trimSpace_within c))
  rw [shouldWrap_some, h1, h2, h3, h4, hen]
  rfl

theorem wraps_everything_else_witness :
    ShouldWrapCommand (ascii "ls | grep test") (some enabledConfig) = some true ∧
      ShouldWrapCommand (ascii "echo $(pwd)") (some enabledConfig) = some true ∧
      ShouldWrapCommand (ascii "for i in 1 2 3; do echo $i; done") (some enabledConfig) =
        some true ∧
      ShouldWrapCommand (ascii "ls | grep foo # custom-skip") (some enabledConfig) =
        some true :=
  ⟨wraps_everything_else _ _ rfl (by decide) (by decide) (by decide),
    wraps_everything_else _ _ rfl (by decide) (by decide) (by decide),
    wraps_everything_else _ _ rfl (by decide) (by decide) (by decide),
    wraps_everything_else _ _ rfl (by decide) (by decide) (by decide)⟩

/-- C6 as stated fails: the command made of one vertical tab (byte 11) is, once spaces, tabs,
newlines and carriage returns are removed from its ends, non-empty; it does not begin with
`bash -c ` and contains no escape marker; the config is enabled; and `ShouldWrapCommand`
returns false, because `strings.TrimSpace` removes the vertical tab too. -/
theorem wraps_everything_else_counterexample :
    enabledConfig.Enabled = true ∧ trimListed [11] ≠ [] ∧
      ¬ ascii "bash -c " <+: trimListed [11] ∧
      (∀ m ∈ EscapeMarkers ++ enabledConfig.AdditionalEscapeMarkers, ¬ m <:+: [11]) ∧
      ShouldWrapCommand [11] (some enabledConfig) = some false := by
  decide

/-- C7, amended. Never double-wrap: for every command `c` that, with its leading and trailing
white space removed as `strings.TrimSpace` does (white space as defined by Unicode: space, tab,
newline, carriage return, and also vertical tab, form feed, U+0085, U+00A0 and the other
White_Space code points), begins with the prefix `bash -c `, and in particular for every output
of `WrapCommand`, and for every config, `ShouldWrapCommand` returns false. -/
theorem alreadyWrapped_not_wrapped (c : GoString) (cfg : Option Config)
    (h : ascii "bash -c " <+: TrimSpace c ∨ ∃ c0, WrapCommand c0 = some c) :
    ShouldWrapCommand c cfg = some false := by
  rcases h with h | ⟨c0, h⟩
  · exact shouldWrap_of_prefix c cfg h
  · apply shouldWrap_of_prefix
    rw [trimSpace_wrapped c0 c h]
    rw [wrapCommand_eq] at h
    rw [← Option.some.inj h]
    exact ⟨ascii "\"$(echo '" ++ rfc4648Encode c0 ++ wrapSuffix, by
      rw [List.append_assoc wrapPrefix]; rfl⟩

theorem alreadyWrapped_not_wrapped_witness :
    (ascii "bash -c " <+: TrimSpace (ascii " bash -c \"$(echo 'dGVzdA==' | base64 -d)\"\n") ∧
      ShouldWrapCommand (ascii " bash -c \"$(echo 'dGVzdA==' | base64 -d)\"\n")
        (some enabledConfig) = some false) ∧
    (WrapCommand (ascii "test") = some (ascii "bash -c \"$(echo 'dGVzdA==' | base64 -d)\"") ∧
      ShouldWrapCommand (ascii "bash -c \"$(echo 'dGVzdA==' | base64 -d)\"") none =
        some false) :=
  ⟨⟨by decide, alreadyWrapped_not_wrapped _ _ (Or.inl (by decide))⟩,
    ⟨by decide, alreadyWrapped_not_wrapped _ _ (Or.inr ⟨ascii "test", by decide⟩)⟩⟩

/-- C7 as stated fails when the trim removes only spaces, tabs, newlines and carriage returns:
the command `bash -c ` followed by one vertical tab (byte 11) is left unchanged by that trim and
begins with the prefix `bash -c `; the config is enabled and no escape marker occurs; and
`ShouldWrapCommand` returns true, because `strings.TrimSpace` removes the vertical tab and then
the space before it, and the trimmed command `bash -c` does not begin with `bash -c `. -/
theorem alreadyWrapped_listedTrim_counterexample :
    trimListed (ascii "bash -c " ++ [11]) = ascii "bash -c " ++ [11] ∧
      ascii "bash -c " <+: trimListed (ascii "bash -c " ++ [11]) ∧
      TrimSpace (ascii "bash -c " ++ [11]) = ascii "bash -c" ∧
      ShouldWrapCommand (ascii "bash -c " ++ [11]) (some enabledConfig) = some true := by
  decide

/-- C8. For every command made only of spaces, tabs, newlines and carriage returns (the empty
command included) and for every config, `ShouldWrapCommand` returns false. -/
theorem emptyCommand_not_wrapped (c : GoString) (cfg : Option Config)
    (h : ∀ b ∈ c, isListedSpace b = true) : ShouldWrapCommand c cfg = some false := by
  have ht := trimSpace_of_listed c h
  cases cfg with
  | none => rw [shouldWrap_none, ht]; rfl
  | some cf => rw [shouldWrap_some, ht]; rfl

theorem emptyCommand_not_wrapped_witness :
    ShouldWrapCommand (ascii "") (some enabledConfig) = some false ∧
      ShouldWrapCommand (ascii "   ") (some enabledConfig) = some false ∧
      ShouldWrapCommand (ascii "\t") none = some false ∧
      ShouldWrapCommand (ascii "\n") (some enabledConfig) = some false ∧
      ShouldWrapCommand (ascii " \r\n\t ") (some enabledConfig) = some false :=
  ⟨emptyCommand_not_wrapped _ _ (by decide), emptyCommand_not_wrapped _ _ (by decide),
    emptyCommand_not_wrapped _ _ (by decide), emptyCommand_not_wrapped _ _ (by decide),
    emptyCommand_not_wrapped _ _ (by decide)⟩

/-- C9. A nil config is treated as an enabled config without additional escape markers: for
every command `c`, `ShouldWrapCommand c nil` does not fail (no nil dereference) and returns
what `ShouldWrapCommand` returns for `&Config{Enabled: true}`, whatever the other fields. -/
theorem nilConfig_is_enabled (c : GoString) :
    (∃ b, ShouldWrapCommand c none = some b) ∧
      ShouldWrapCommand c none = ShouldWrapCommand c (some enabledConfig) ∧
      ∀ (safe force : List GoString) (debug : Bool) (logFile : GoString),
        ShouldWrapCommand c none =
          ShouldWrapCommand c (some ⟨true, safe, [], force, debug, logFile⟩) := by
  refine ⟨⟨_, shouldWrap_none c⟩, ?_, ?_⟩
  · rw [shouldWrap_none, shouldWrap_some]
    simp [enabledConfig, markerFound]
  · intro safe force debug logFile
    rw [shouldWrap_none, shouldWrap_some]
    simp [markerFound]

/-- C10. Leading and trailing white space does not change the decision: for every command
`c`, every config and all strings `l` and `r` made only of spaces, tabs, newlines and
carriage returns, `ShouldWrapCommand (l ++ c ++ r)` equals `ShouldWrapCommand c`. -/
theorem surroundingSpace_irrelevant (c l r : GoString) (cfg : Option Config)
    (hl : ∀ b ∈ l, isListedSpace b = true) (hr : ∀ b ∈ r, isListedSpace b = true) :
    ShouldWrapCommand (l ++ c ++ r) cfg = ShouldWrapCommand c cfg := by
  unfold ShouldWrapCommand
  rw [trimSpace_listed l c r hl hr]

theorem surroundingSpace_irrelevant_witness :
    ShouldWrapCommand (ascii " \t" ++ ascii "ls | grep test" ++ ascii "\r\n") none =
        ShouldWrapCommand (ascii "ls | grep test") none ∧
      ShouldWrapCommand (ascii "\n" ++ [0xC2, 0xA0, 0x6C, 0x73, 0xE2, 0x80] ++ ascii "  ")
          (some enabledConfig) =
        ShouldWrapCommand [0xC2, 0xA0, 0x6C, 0x73, 0xE2, 0x80] (some enabledConfig) :=
  ⟨surroundingSpace_irrelevant _ _ _ _ (by decide) (by decide),
    surroundingSpace_irrelevant _ _ _ _ (by decide) (by decide)⟩

/-! ## Totality of the encoder -/

theorem rfc4648Encode_length (s : GoString) :
    (rfc4648Encode s).length = 4 * ((s.length + 2) / 3) := by
  induction s using rfc4648Encode.induct with
  | case1 => rfl
  | case2 a => simp [rfc4648Encode]
  | case3 a b => simp [rfc4648Encode]
  | case4 a b c rest ih =>
    rw [rfc4648Encode]
    simp only [List.length_cons, ih]
    omega

theorem base64Step_some (input : GoString) (i : Nat) (result : GoString)
    (hi : i < input.length) :
    ∃ r, base64Step input i result = some r ∧ r.length = result.length + 4 := by
  rcases hd : input.drop i with _ | ⟨a, _ | ⟨b, _ | ⟨c, rest⟩⟩⟩
  · have := List.length_drop i input
    rw [hd] at this
    simp at this
    omega
  · exact ⟨_, base64Step_one result hd, by simp [rfc4648Encode]⟩
  · exact ⟨_, base64Step_two result hd, by simp [rfc4648Encode]⟩
  · exact ⟨_, base64Step_three result hd, by simp [rfc4648Encode]⟩

theorem base64Loop_passes (input : GoString) :
    ∀ (fuel i : Nat) (result : GoString), input.length - i ≤ 3 * fuel →
      base64Loop input fuel i result = some (result ++ rfc4648Encode (input.drop i)) := by
  intro fuel
  induction fuel with
  | zero =>
    intro i result hf
    have hi : ¬ i < input.length := by omega
    have hd : input.drop i = [] := List.drop_eq_nil_of_le (by omega)
    simp [base64Loop, hi, hd, rfc4648Encode]
  | succ fuel ih =>
    intro i result hf
    by_cases hi : i < input.length
    · rw [base64Loop, if_pos hi]
      rcases hd : input.drop i with _ | ⟨a, _ | ⟨b, _ | ⟨c, rest⟩⟩⟩
      · have := List.length_drop i input
        rw [hd] at this
        simp at this
        omega
      · have hd3 : input.drop (i + 3) = [] := by
          rw [← List.drop_drop, hd]; rfl
        rw [base64Step_one result hd, Option.some_bind, ih _ _ (by omega), hd3]
        simp [rfc4648Encode]
      · have hd3 : input.drop (i + 3) = [] := by
          rw [← List.drop_drop, hd]; rfl
        rw [base64Step_two result hd, Option.some_bind, ih _ _ (by omega), hd3]
        simp [rfc4648Encode]
      · have hd3 : input.drop (i + 3) = rest := by
          rw [← List.drop_drop, hd]; rfl
        rw [base64Step_three result hd, Option.some_bind, ih _ _ (by omega), hd3]
        simp [rfc4648Encode]
    · have hd : input.drop i = [] := List.drop_eq_nil_of_le (by omega)
      simp [base64Loop, hi, hd, rfc4648Encode]

/-- C11. `base64Encode` is total: for every byte sequence of any length `n` the loop ends
after `⌈n / 3⌉` passes; in every pass, made at an index `i < n`, each indexing of `input` and
of `alphabet` is in range (the pass returns a value and adds four characters), every alphabet
index `x & 0x3F` is below 64, the length of `alphabet`; so the encoder never fails and returns
a string of exactly `4 * ⌈n / 3⌉` characters. -/
theorem base64Encode_total :
    (∀ s : GoString, ∃ out, base64Encode s = some out ∧
      base64Loop s ((s.length + 2) / 3) 0 [] = some out ∧
      out.length = 4 * ((s.length + 2) / 3)) ∧
    (∀ (s : GoString) (i : Nat) (result : GoString), i < s.length →
      ∃ r, base64Step s i result = some r ∧ r.length = result.length + 4) ∧
    (∀ x : Nat, x &&& 0x3F < alphabet.length) := by
  refine ⟨?_, base64Step_some, ?_⟩
  · intro s
    refine ⟨rfc4648Encode s, base64Encode_eq s, ?_, rfc4648Encode_length s⟩
    rw [base64Loop_passes s _ 0 [] (by omega)]
    simp
  · intro x
    rw [show alphabet.length = 64 by decide, sextet_low]
    omega

theorem base64Encode_total_witness :
    (3 < (ascii "hello").length ∧
      ∃ r, base64Step (ascii "hello") 3 (ascii "aGVs") = some r ∧
        r.length = (ascii "aGVs").length + 4) ∧
    (0 < (ascii "a").length ∧
      ∃ r, base64Step (ascii "a") 0 [] = some r ∧ r.length = ([] : GoString).length + 4) :=
  ⟨⟨by decide, base64Encode_total.2.1 (ascii "hello") 3 (ascii "aGVs") (by decide)⟩,
    ⟨by decide, base64Encode_total.2.1 (ascii "a") 0 [] (by decide)⟩⟩

end BashHook
